import Mathlib

set_option maxRecDepth 4000

/-!
Verification of the full-RLNC (Random Linear Network Coding) engine over
GF(2^8): field arithmetic from log/exp tables, the encoder with boundary-marker
padding, the incremental RREF decoder matrix, the decoder, and the recoder.
All definitions mirror the Rust sources (`src/common/gf256.rs`,
`src/full/encoder.rs`, `src/full/decoder_matrix.rs`, `src/full/decoder.rs`,
`src/full/recoder.rs`); byte values are modelled as `Nat` below 256, byte
buffers as `List Nat`, and the flat row-major decoder matrix as its list of
rows.
-/

/-- Logarithm table for GF(2^8) with the irreducible polynomial 0x11D and
primitive element 2, copied from `GF256_LOG_TABLE` in `src/common/gf256.rs`. -/
def GF256_LOG_TABLE : List Nat :=
  [
    0, 0, 1, 25, 2, 50, 26, 198, 3, 223, 51, 238, 27, 104, 199, 75,
    4, 100, 224, 14, 52, 141, 239, 129, 28, 193, 105, 248, 200, 8, 76, 113,
    5, 138, 101, 47, 225, 36, 15, 33, 53, 147, 142, 218, 240, 18, 130, 69,
    29, 181, 194, 125, 106, 39, 249, 185, 201, 154, 9, 120, 77, 228, 114, 166,
    6, 191, 139, 98, 102, 221, 48, 253, 226, 152, 37, 179, 16, 145, 34, 136,
    54, 208, 148, 206, 143, 150, 219, 189, 241, 210, 19, 92, 131, 56, 70, 64,
    30, 66, 182, 163, 195, 72, 126, 110, 107, 58, 40, 84, 250, 133, 186, 61,
    202, 94, 155, 159, 10, 21, 121, 43, 78, 212, 229, 172, 115, 243, 167, 87,
    7, 112, 192, 247, 140, 128, 99, 13, 103, 74, 222, 237, 49, 197, 254, 24,
    227, 165, 153, 119, 38, 184, 180, 124, 17, 68, 146, 217, 35, 32, 137, 46,
    55, 63, 209, 91, 149, 188, 207, 205, 144, 135, 151, 178, 220, 252, 190, 97,
    242, 86, 211, 171, 20, 42, 93, 158, 132, 60, 57, 83, 71, 109, 65, 162,
    31, 45, 67, 216, 183, 123, 164, 118, 196, 23, 73, 236, 127, 12, 111, 246,
    108, 161, 59, 82, 41, 157, 85, 170, 251, 96, 134, 177, 187, 204, 62, 90,
    203, 89, 95, 176, 156, 169, 160, 81, 11, 245, 22, 235, 122, 117, 44, 215,
    79, 174, 213, 233, 230, 231, 173, 232, 116, 214, 244, 234, 168, 80, 88, 175
  ]

/-- Exponentiation table (length 510, the second half repeating the first to
absorb `log a + log b` up to 508), copied from `GF256_EXP_TABLE` in
`src/common/gf256.rs`. -/
def GF256_EXP_TABLE : List Nat :=
  [
    1, 2, 4, 8, 16, 32, 64, 128, 29, 58, 116, 232, 205, 135, 19, 38,
    76, 152, 45, 90, 180, 117, 234, 201, 143, 3, 6, 12, 24, 48, 96, 192,
    157, 39, 78, 156, 37, 74, 148, 53, 106, 212, 181, 119, 238, 193, 159, 35,
    70, 140, 5, 10, 20, 40, 80, 160, 93, 186, 105, 210, 185, 111, 222, 161,
    95, 190, 97, 194, 153, 47, 94, 188, 101, 202, 137, 15, 30, 60, 120, 240,
    253, 231, 211, 187, 107, 214, 177, 127, 254, 225, 223, 163, 91, 182, 113, 226,
    217, 175, 67, 134, 17, 34, 68, 136, 13, 26, 52, 104, 208, 189, 103, 206,
    129, 31, 62, 124, 248, 237, 199, 147, 59, 118, 236, 197, 151, 51, 102, 204,
    133, 23, 46, 92, 184, 109, 218, 169, 79, 158, 33, 66, 132, 21, 42, 84,
    168, 77, 154, 41, 82, 164, 85, 170, 73, 146, 57, 114, 228, 213, 183, 115,
    230, 209, 191, 99, 198, 145, 63, 126, 252, 229, 215, 179, 123, 246, 241, 255,
    227, 219, 171, 75, 150, 49, 98, 196, 149, 55, 110, 220, 165, 87, 174, 65,
    130, 25, 50, 100, 200, 141, 7, 14, 28, 56, 112, 224, 221, 167, 83, 166,
    81, 162, 89, 178, 121, 242, 249, 239, 195, 155, 43, 86, 172, 69, 138, 9,
    18, 36, 72, 144, 61, 122, 244, 245, 247, 243, 251, 235, 203, 139, 11, 22,
    44, 88, 176, 125, 250, 233, 207, 131, 27, 54, 108, 216, 173, 71, 142, 1,
    2, 4, 8, 16, 32, 64, 128, 29, 58, 116, 232, 205, 135, 19, 38, 76,
    152, 45, 90, 180, 117, 234, 201, 143, 3, 6, 12, 24, 48, 96, 192, 157,
    39, 78, 156, 37, 74, 148, 53, 106, 212, 181, 119, 238, 193, 159, 35, 70,
    140, 5, 10, 20, 40, 80, 160, 93, 186, 105, 210, 185, 111, 222, 161, 95,
    190, 97, 194, 153, 47, 94, 188, 101, 202, 137, 15, 30, 60, 120, 240, 253,
    231, 211, 187, 107, 214, 177, 127, 254, 225, 223, 163, 91, 182, 113, 226, 217,
    175, 67, 134, 17, 34, 68, 136, 13, 26, 52, 104, 208, 189, 103, 206, 129,
    31, 62, 124, 248, 237, 199, 147, 59, 118, 236, 197, 151, 51, 102, 204, 133,
    23, 46, 92, 184, 109, 218, 169, 79, 158, 33, 66, 132, 21, 42, 84, 168,
    77, 154, 41, 82, 164, 85, 170, 73, 146, 57, 114, 228, 213, 183, 115, 230,
    209, 191, 99, 198, 145, 63, 126, 252, 229, 215, 179, 123, 246, 241, 255, 227,
    219, 171, 75, 150, 49, 98, 196, 149, 55, 110, 220, 165, 87, 174, 65, 130,
    25, 50, 100, 200, 141, 7, 14, 28, 56, 112, 224, 221, 167, 83, 166, 81,
    162, 89, 178, 121, 242, 249, 239, 195, 155, 43, 86, 172, 69, 138, 9, 18,
    36, 72, 144, 61, 122, 244, 245, 247, 243, 251, 235, 203, 139, 11, 22, 44,
    88, 176, 125, 250, 233, 207, 131, 27, 54, 108, 216, 173, 71, 142
  ]

/-- Packed base-256 encoding of `GF256_LOG_TABLE` (digit `i` is `log i`),
used only to make bulk kernel checks over the table cheap. -/
def LOG_N : Nat :=
  22135253156888987530748098150270024343632497605293634117281264061560962248099620766229961468867162294233796152347975563017024165690400661622462404646302566225833645086064538892198543335321514950294300187779610338557442029018619797274438901674641748676613670242915365385819254959901651105240253464034662486586186382979728982817772067067513442677601938078891989292316012868233806586592927239821351197800766822366321181463280924672822998103315976779850880337712374790938628529953751181886374687897611504386983350015558142994211516619836411558782076806704747441947939324473761869443721989389604670425385080942269787340800

/-- Packed base-256 encoding of `GF256_EXP_TABLE` (digit `i` is `exp i`). -/
def EXP_N : Nat :=
  8856990713409824987183140402374358080674248354215423657725458004488207893438392946030888853375904797289504668347160626187132259699900233138648534461763796553722681762569641945119264861220663755468484037720775188535579952245867663006651507277791222666826785483398433307595704877043200076058100196638910845779782293078032926818358696911279575842852319355700605339911765372424152090200116912196812683442216396899668384855648195394238364200816963036045261203126476910443940504312987208021345653905171248397066478845569494078144977197837111232127732754508096250939318709245866461879354629945230799664051954596316140836780717108354261181748492094461244742858401085820322168057750326071736368712266714827098764897370398784052097986092416779378404705019203020335569119892153447474284880772368378344689255354826179669527487614603533424485383665010357433079299522588467683458117463774085267711371273156937819115392343347060478494473386782195599410389734005551742428694560297619569031029357707022930644351916425117765030612268580539533293361144518654644548322964103094579667389630079007276152875920723587307542406162776191331872344722220447978477718188404304137896878643387669563613408028725344812418906929574157450205698549093433583337985

/-- Lookup into the logarithm table with default 0, as `GF256_LOG_TABLE[a]`
behaves for in-range indices in the Rust code. -/
def logT (a : Nat) : Nat := GF256_LOG_TABLE.getD a 0

/-- Lookup into the exponentiation table with default 0. -/
def expT (i : Nat) : Nat := GF256_EXP_TABLE.getD i 0

/-- Multiplication over GF(2^8) as `Gf256::mul_const` computes it: zero when a
factor is zero, otherwise `exp (log a + log b)`. -/
def gmul (a b : Nat) : Nat :=
  if a = 0 || b = 0 then 0 else expT (logT a + logT b)

/-- Multiplicative inverse as `Gf256::inv`: `none` for 0, otherwise
`exp (255 - log a)`. -/
def ginv (a : Nat) : Option Nat :=
  if a = 0 then none else some (expT (255 - logT a))

/-- Total version of `Gf256::inv` defaulting to 0 (only used under the same
nonzero guards the Rust code establishes before `unwrap_unchecked`). -/
def ginvD (a : Nat) : Nat := (ginv a).getD 0

/-- Division as `Gf256::div`: `a * inv b`, defaulting to 0 when `b = 0` (only
used under the nonzero guards the Rust code establishes). -/
def gdivD (a b : Nat) : Nat :=
  match ginv b with
  | none => 0
  | some bi => gmul a bi

/-- Fast digit-extraction variant of `logT` over the packed table. -/
def logF (a : Nat) : Nat := (LOG_N >>> (8 * a)) &&& 255

/-- Fast digit-extraction variant of `expT` over the packed table. -/
def expF (i : Nat) : Nat := (EXP_N >>> (8 * i)) &&& 255

/-- Fast variant of `gmul` used for bulk kernel checks. -/
def gmulF (a b : Nat) : Nat :=
  if a = 0 || b = 0 then 0 else expF (logF a + logF b)

/-- Doubling step of carry-less multiplication modulo the polynomial 0x11D:
shift left, drop bit 8, and fold in the reduced polynomial tail 0x1D when the
top bit was set. -/
def xtime (b : Nat) : Nat :=
  ((b <<< 1) &&& 255) ^^^ (if b.testBit 7 then 29 else 0)

/-- Bounded universal Boolean checker: `allBelow f n` holds when `f i` for
every `i < n`. -/
def allBelow (f : Nat → Bool) : Nat → Bool
  | 0 => true
  | n + 1 => f n && allBelow f n

/-- Iterate `xtime` n times, i.e. multiplication by the n-th power of the
primitive element 2. -/
def xtimes : Nat → Nat → Nat
  | 0, x => x
  | n + 1, x => xtime (xtimes n x)

/-- Error type mirroring `RLNCError` in `src/common/errors.rs`, together with
the `PieceLengthTooShort` variant that `Recoder::new` in `src/full/recoder.rs`
returns (the snapshot's enum listing omits it). -/
inductive RLNCError where
  | CodingVectorLengthMismatch
  | DataLengthMismatch
  | PieceCountZero
  | DataLengthZero
  | PieceLengthZero
  | PieceLengthTooShort
  | NotEnoughPiecesToRecode
  | PieceNotUseful
  | ReceivedAllPieces
  | NotAllPiecesReceivedYet
  | InvalidDecodedDataFormat
  | InvalidPieceLength
deriving DecidableEq, Repr

/-- XOR-sum of `f i` over `i < n`, the GF(2^8) sum accumulated left to right
exactly as the Rust fold does. -/
def gfSum (n : Nat) (f : Nat → Nat) : Nat :=
  (List.range n).foldl (fun acc i => acc ^^^ f i) 0

/-- Fuel-driven worker for `chunksExact`; the fuel only needs to dominate the
list length, so the recursion is structural and reduces in the kernel. -/
def chunksExactAux (sz : Nat) : Nat → List Nat → List (List Nat)
  | 0, _ => []
  | fuel + 1, l =>
    if 0 < sz ∧ sz ≤ l.length then l.take sz :: chunksExactAux sz fuel (l.drop sz)
    else []

/-- Split a list into consecutive chunks of exactly `sz` elements, discarding a
trailing partial chunk, as Rust's `chunks_exact` does. -/
def chunksExact (sz : Nat) (l : List Nat) : List (List Nat) :=
  chunksExactAux sz l.length l

/-- Row `r` of a matrix held as a list of rows (empty list when out of range). -/
def getRow (m : List (List Nat)) (r : Nat) : List Nat := m.getD r []

/-- Entry of the decoder matrix at row `r`, column `c`, mirroring the
`Index<(usize, usize)>` implementation on the flat buffer. -/
def getE (m : List (List Nat)) (r c : Nat) : Nat := (getRow m r).getD c 0

/-- Exchange of two rows, as `DecoderMatrix::swap_rows`. -/
def swapRows (m : List (List Nat)) (a b : Nat) : List (List Nat) :=
  (m.set a (getRow m b)).set b (getRow m a)

/-- Fused multiply-add on the tail of a row starting at column `start`:
`dst[t] ^= mul_const(src[t], q)` for `t ≥ start`, as
`gf256_inplace_mul_vec_by_scalar_then_add_into_vec` applied to the row slices
`dst[start..]` and `src[start..]`. -/
def fmaFrom (start q : Nat) (dst src : List Nat) : List Nat :=
  dst.take start ++
    List.zipWith (fun d s => d ^^^ gmul s q) (dst.drop start) (src.drop start)

/-- Pivot normalization step of `clean_backward`: set the diagonal entry to 1
and scale the strict tail of the row by `inv`, as the Rust code does with
`gf256_inplace_mul_vec_by_scalar`. -/
def normalizeRow (i inv : Nat) (row : List Nat) : List Nat :=
  (row.set i 1).take (i + 1) ++ (row.drop (i + 1)).map (fun v => gmul v inv)

/-- Apply `f` to every element together with its index, starting at index `i`. -/
def mapIdxFrom (f : Nat → List Nat → List Nat) : Nat → List (List Nat) → List (List Nat)
  | _, [] => []
  | i, r :: rs => f i r :: mapIdxFrom f (i + 1) rs

/-- Elimination below the pivot at `(i, i)`: each row `j > i` with a nonzero
entry in column `i` gets the scaled pivot row folded into its tail. The rows
are updated independently against the entries of the input matrix, which
matches the sequential Rust loop because only row `j` changes at step `j`. -/
def elimBelow (m : List (List Nat)) (i : Nat) : List (List Nat) :=
  mapIdxFrom
    (fun j row =>
      if i < j ∧ getE m j i ≠ 0 then
        fmaFrom i (gdivD (getE m j i) (getE m i i)) row (getRow m i)
      else row)
    0 m

/-- Scan for the first row strictly below `i` with a nonzero entry in column
`i`, as the `while` loop in `clean_forward`. -/
def findPivot (m : List (List Nat)) (i : Nat) : Option Nat :=
  (List.range' (i + 1) (m.length - (i + 1))).find? (fun j => getE m j i != 0)

/-- One iteration of the `clean_forward` loop at diagonal index `i`. -/
def fstep (m : List (List Nat)) (i : Nat) : List (List Nat) :=
  if getE m i i = 0 then
    match findPivot m i with
    | none => m
    | some p => elimBelow (swapRows m i p) i
  else elimBelow m i

/-- Forward loop of `clean_forward` over diagonal indices `i, i+1, ...` for
`fuel` iterations. -/
def cfAux (m : List (List Nat)) (i : Nat) : Nat → List (List Nat)
  | 0 => m
  | fuel + 1 => cfAux (fstep m i) (i + 1) fuel

/-- Forward phase of Gaussian elimination, `DecoderMatrix::clean_forward`. -/
def cleanForward (cols : Nat) (m : List (List Nat)) : List (List Nat) :=
  cfAux m 0 (min m.length cols)

/-- One iteration of the `clean_backward` loop at diagonal index `i`: skip a
zero diagonal, otherwise clear column `i` above the pivot and normalize the
pivot row. -/
def bstep (m : List (List Nat)) (i : Nat) : List (List Nat) :=
  if getE m i i = 0 then m
  else
    let m1 := mapIdxFrom
      (fun j row =>
        if j < i ∧ getE m j i ≠ 0 then
          fmaFrom i (gdivD (getE m j i) (getE m i i)) row (getRow m i)
        else row)
      0 m
    if getE m1 i i = 1 then m1
    else m1.set i (normalizeRow i (ginvD (getE m1 i i)) (getRow m1 i))

/-- Backward loop of `clean_backward` over descending diagonal indices. -/
def cbAux (m : List (List Nat)) : Nat → List (List Nat)
  | 0 => m
  | n + 1 => cbAux (bstep m n) n

/-- Backward phase of Gaussian elimination, `DecoderMatrix::clean_backward`. -/
def cleanBackward (cols : Nat) (m : List (List Nat)) : List (List Nat) :=
  cbAux m (min m.length cols)

/-- Row predicate of `DecoderMatrix::remove_zero_rows`: a row is kept when one
of its first `K` (coefficient) entries is nonzero. -/
def coeffNonzero (K : Nat) (row : List Nat) : Bool :=
  (List.range K).any (fun c => row.getD c 0 != 0)

/-- Zero-row compaction, `DecoderMatrix::remove_zero_rows`: the in-place
upward copy is order-preserving removal, i.e. a filter. -/
def removeZeroRows (K : Nat) (m : List (List Nat)) : List (List Nat) :=
  m.filter (coeffNonzero K)

/-- Decoder matrix of `src/full/decoder_matrix.rs`. The flat row-major byte
buffer with its `rows`/`cols` counters is held as the list of its rows, each a
list of `cols` bytes; the Rust `rows` counter is the length of that list. -/
structure DecoderMatrix where
  num_pieces_coded_together : Nat
  cols : Nat
  elements : List (List Nat)
deriving DecidableEq, Repr

/-- Constructor `DecoderMatrix::new`. -/
def DecoderMatrix.new (num_pieces_coded_together piece_byte_length : Nat) : DecoderMatrix :=
  { num_pieces_coded_together := num_pieces_coded_together
    cols := num_pieces_coded_together + piece_byte_length
    elements := [] }

/-- Rank accessor `DecoderMatrix::rank`: the current row count. -/
def DecoderMatrix.rank (mat : DecoderMatrix) : Nat := mat.elements.length

/-- Row append `DecoderMatrix::add_row`. -/
def DecoderMatrix.add_row (mat : DecoderMatrix) (row : List Nat) :
    Except RLNCError DecoderMatrix :=
  if row.length ≠ mat.cols then .error .InvalidPieceLength
  else .ok (DecoderMatrix.mk mat.num_pieces_coded_together mat.cols (mat.elements ++ [row]))

/-- Reduced row echelon form `DecoderMatrix::rref`: forward elimination,
backward elimination, then zero-row compaction. -/
def DecoderMatrix.rref (mat : DecoderMatrix) : DecoderMatrix :=
  DecoderMatrix.mk mat.num_pieces_coded_together mat.cols
    (removeZeroRows mat.num_pieces_coded_together
      (cleanBackward mat.cols (cleanForward mat.cols mat.elements)))

/-- Buffer extraction `DecoderMatrix::extract_data`: the flat byte buffer is
the concatenation of the rows. -/
def DecoderMatrix.extract_data (mat : DecoderMatrix) : List Nat :=
  mat.elements.flatten

/-- Encoder of `src/full/encoder.rs`: the padded data buffer with the piece
counts. -/
structure Encoder where
  data : List Nat
  piece_count : Nat
  piece_byte_len : Nat
deriving DecidableEq, Repr

/-- Accessor `Encoder::get_full_coded_piece_byte_len`. -/
def Encoder.get_full_coded_piece_byte_len (e : Encoder) : Nat :=
  e.piece_count + e.piece_byte_len

/-- Constructor `Encoder::without_padding`, used internally by the recoder. -/
def Encoder.without_padding (data : List Nat) (piece_count : Nat) :
    Except RLNCError Encoder :=
  if data.length = 0 then .error .DataLengthZero
  else if piece_count = 0 then .error .PieceCountZero
  else if data.length / piece_count * piece_count ≠ data.length then .error .DataLengthMismatch
  else .ok (Encoder.mk data piece_count (data.length / piece_count))

/-- Resize a byte buffer to `n` entries, padding with zeros, as
`Vec::resize(n, 0)` behaves when growing (the encoder only grows). -/
def listResize (l : List Nat) (n : Nat) : List Nat :=
  l.take n ++ List.replicate (n - l.length) 0

/-- Constructor `Encoder::new`: compute `L = ceil((len+1)/K)`, zero-extend the
data to `K*L` bytes and write the boundary marker 0x81 right after the
original data. -/
def Encoder.new (data : List Nat) (piece_count : Nat) : Except RLNCError Encoder :=
  if data.length = 0 then .error .DataLengthZero
  else if piece_count = 0 then .error .PieceCountZero
  else .ok (Encoder.mk
    ((listResize data
        (piece_count * ((data.length + 1 + (piece_count - 1)) / piece_count))).set
      data.length 129)
    piece_count
    ((data.length + 1 + (piece_count - 1)) / piece_count))

/-- Coding `Encoder::code_with_coding_vector`: the output buffer carries the
coding vector in its first `K` bytes and accumulates
`sum_i c[i] * piece_i` into its payload half with the fused multiply-add. -/
def Encoder.code_with_coding_vector (e : Encoder) (coding_vector : List Nat) :
    Except RLNCError (List Nat) :=
  if coding_vector.length ≠ e.piece_count then .error .CodingVectorLengthMismatch
  else
    .ok (coding_vector ++
      ((chunksExact e.piece_byte_len e.data).zip coding_vector).foldl
        (fun acc pc => List.zipWith (fun a b => a ^^^ b) acc (pc.1.map (fun s => gmul s pc.2)))
        (List.replicate e.piece_byte_len 0))

/-- Decoder of `src/full/decoder.rs`. -/
structure Decoder where
  matrix : DecoderMatrix
  piece_byte_len : Nat
  required_piece_count : Nat
  received_piece_count : Nat
  useful_piece_count : Nat
deriving DecidableEq, Repr

/-- Accessor `Decoder::get_full_coded_piece_byte_len`. -/
def Decoder.get_full_coded_piece_byte_len (d : Decoder) : Nat :=
  d.required_piece_count + d.piece_byte_len

/-- Constructor `Decoder::new`. -/
def Decoder.new (piece_byte_len required_piece_count : Nat) : Except RLNCError Decoder :=
  if piece_byte_len = 0 then .error .PieceLengthZero
  else if required_piece_count = 0 then .error .PieceCountZero
  else .ok
    { matrix := DecoderMatrix.new required_piece_count piece_byte_len
      piece_byte_len := piece_byte_len
      required_piece_count := required_piece_count
      received_piece_count := 0
      useful_piece_count := 0 }

/-- Completion test `Decoder::is_already_decoded`. -/
def Decoder.is_already_decoded (d : Decoder) : Bool :=
  d.matrix.rank == d.required_piece_count

/-- Decoding step `Decoder::decode`. The Rust method mutates `self` and
returns `Result<(), RLNCError>`; here it returns the new state paired with
`none` for `Ok(())` or `some e` for `Err(e)`. -/
def Decoder.decode (d : Decoder) (full_coded_piece : List Nat) :
    Decoder × Option RLNCError :=
  if d.is_already_decoded then (d, some .ReceivedAllPieces)
  else if full_coded_piece.length ≠ d.get_full_coded_piece_byte_len then
    (d, some .InvalidPieceLength)
  else
    match d.matrix.add_row full_coded_piece with
    | .error e => (d, some e)
    | .ok m1 =>
      if d.matrix.rank = m1.rref.rank then
        (Decoder.mk m1.rref d.piece_byte_len d.required_piece_count
          (d.received_piece_count + 1) d.useful_piece_count, some .PieceNotUseful)
      else
        (Decoder.mk m1.rref d.piece_byte_len d.required_piece_count
          (d.received_piece_count + 1) m1.rref.rank, none)

/-- Boundary-marker post-processing of `Decoder::get_decoded_data` applied to
the concatenated payload bytes: locate the last occurrence of 0x81 via the
reversed scan `iter().rev().position(..)`, reject a marker at index 0 or a
nonzero byte after it, and truncate. -/
def decodedBoundary (decoded_data : List Nat) : Except RLNCError (List Nat) :=
  if decoded_data.length - 1 -
      (match decoded_data.reverse.findIdx? (fun byte => byte == 129) with
       | some k => k
       | none => decoded_data.length - 1) = 0 then
    .error .InvalidDecodedDataFormat
  else if (decoded_data.drop
      ((decoded_data.length - 1 -
        (match decoded_data.reverse.findIdx? (fun byte => byte == 129) with
         | some k => k
         | none => decoded_data.length - 1)) + 1)).any (fun byte => byte != 0) then
    .error .InvalidDecodedDataFormat
  else .ok (decoded_data.take
    (decoded_data.length - 1 -
      (match decoded_data.reverse.findIdx? (fun byte => byte == 129) with
       | some k => k
       | none => decoded_data.length - 1)))

/-- Extraction `Decoder::get_decoded_data`: concatenate the payload halves of
the rows, find the last boundary marker through the reversed scan, validate
the zero tail, and truncate. -/
def Decoder.get_decoded_data (d : Decoder) : Except RLNCError (List Nat) :=
  if !d.is_already_decoded then .error .NotAllPiecesReceivedYet
  else decodedBoundary
    (((chunksExact (d.required_piece_count + d.piece_byte_len) d.matrix.extract_data).map
      (fun full_decoded_piece => full_decoded_piece.drop d.required_piece_count)).flatten)

/-- Recoder of `src/full/recoder.rs`. -/
structure Recoder where
  coding_vectors : List Nat
  encoder : Encoder
  num_pieces_received : Nat
  full_coded_piece_byte_len : Nat
  num_pieces_coded_together : Nat
deriving DecidableEq, Repr

/-- Outcome of `Recoder::new`. The Rust constructor calls
`Encoder::without_padding(..).unwrap_unchecked()`; when that inner call
returns `Err`, the behaviour is undefined, modelled by the `ub` outcome. -/
inductive RecoderNewResult where
  | ok (r : Recoder)
  | err (e : RLNCError)
  | ub
deriving DecidableEq, Repr

/-- Constructor `Recoder::new`: validate the configuration, split each
`full_coded_piece_byte_len`-byte chunk into coding vector and payload, and
build the inner encoder over the stacked payloads. -/
def Recoder.new (data : List Nat) (full_coded_piece_byte_len num_pieces_coded_together : Nat) :
    RecoderNewResult :=
  if data.length = 0 then .err .NotEnoughPiecesToRecode
  else if full_coded_piece_byte_len = 0 then .err .PieceLengthZero
  else if num_pieces_coded_together = 0 then .err .PieceCountZero
  else if full_coded_piece_byte_len ≤ num_pieces_coded_together then .err .PieceLengthTooShort
  else
    match Encoder.without_padding
        (((chunksExact full_coded_piece_byte_len data).map
          (fun ch => ch.drop num_pieces_coded_together)).flatten)
        (data.length / full_coded_piece_byte_len) with
    | .ok e => .ok (Recoder.mk
        (((chunksExact full_coded_piece_byte_len data).map
          (fun ch => ch.take num_pieces_coded_together)).flatten)
        e
        (data.length / full_coded_piece_byte_len)
        full_coded_piece_byte_len
        num_pieces_coded_together)
    | .error _ => .ub

/-- Recoding step `Recoder::recode`, with the sampled recoding vector passed
in as `r`: compose the coding vectors by the vector-matrix product and let the
inner encoder combine the stored payloads; the inner `unwrap_unchecked` is
modelled by defaulting to `[]`, which the theorems rule out by supplying `r`
of the sampled length. -/
def Recoder.recode (rec : Recoder) (r : List Nat) : List Nat :=
  ((List.range rec.num_pieces_coded_together).map (fun coeff_idx =>
    (List.range r.length).foldl
      (fun acc k =>
        acc ^^^ gmul (r.getD k 0)
          (rec.coding_vectors.getD (k * rec.num_pieces_coded_together + coeff_idx) 0))
      0)) ++
  ((rec.encoder.code_with_coding_vector r).toOption.getD []).drop rec.num_pieces_received

/-- Sequential feeding of pieces into a decoder, discarding the per-call
results (callers loop exactly like this in the Rust tests and examples). -/
def feed (d : Decoder) (pieces : List (List Nat)) : Decoder :=
  pieces.foldl (fun st p => (st.decode p).1) d

/-- Payload half of a full coded piece for coding vector `c` over padded data
`D` split into `K` pieces of `L` bytes: entry `j` is
`sum_i D[i*L+j] * c[i]` over GF(2^8). -/
def payloadSpec (D : List Nat) (K L : Nat) (c : List Nat) : List Nat :=
  (List.range L).map (fun j => gfSum K (fun i => gmul (D.getD (i * L + j) 0) (c.getD i 0)))

/-- Full coded piece for coding vector `c`: the vector followed by its
payload. -/
def codedRow (D : List Nat) (K L : Nat) (c : List Nat) : List Nat :=
  c ++ payloadSpec D K L c

/-- Row-shape invariant: every row of the matrix has exactly `cols` entries
and every entry (with out-of-range defaults) is a byte. -/
def rowsWF (cols : Nat) (m : List (List Nat)) : Prop :=
  (∀ r, r < m.length → (getRow m r).length = cols) ∧ (∀ r c, getE m r c < 256)

/-- Coefficient-determined payload: each payload entry of each row is the
GF(2^8) combination of the padded-data pieces prescribed by the coefficient
half of that row. -/
def matCD (D : List Nat) (K L : Nat) (m : List (List Nat)) : Prop :=
  ∀ r, r < m.length → ∀ j, j < L →
    getE m r (K + j) = gfSum K (fun i => gmul (D.getD (i * L + j) 0) (getE m r i))

/-- Lower-triangle zeros on the first `n` columns. -/
def LTz (m : List (List Nat)) (n : Nat) : Prop :=
  ∀ c r, c < n → c < r → r < m.length → getE m r c = 0

/-- Backward-cleaning property at diagonal `i`: a nonzero diagonal entry is 1
with only zeros above it in its column. -/
def Bprop (m : List (List Nat)) (i : Nat) : Prop :=
  getE m i i ≠ 0 → getE m i i = 1 ∧ ∀ r, r < i → getE m r i = 0

/-- Coefficient-determined payload for a single row presented as its total
entry function. -/
def funCD (Dg : Nat → Nat) (K L : Nat) (u : Nat → Nat) : Prop :=
  ∀ j, j < L → u (K + j) = gfSum K (fun i => gmul (Dg (i * L + j)) (u i))

/-- The column-clearing stage of `bstep`: fold the scaled pivot row `i` into
every row above it with a nonzero entry in column `i` (the `let m1 := ...`
of `clean_backward`). -/
def clearAbove (m : List (List Nat)) (i : Nat) : List (List Nat) :=
  mapIdxFrom
    (fun j row =>
      if j < i ∧ getE m j i ≠ 0 then
        fmaFrom i (gdivD (getE m j i) (getE m i i)) row (getRow m i)
      else row)
    0 m

/-- The decoder invariant carried through `decode`: fixed configuration
fields, well-formed byte rows, coefficient-determined payloads, rank bounded
by `K`, and — as soon as the rank reaches `K` — an identity coefficient
block. -/
def goodInv (D : List Nat) (K L : Nat) (d : Decoder) : Prop :=
  d.piece_byte_len = L ∧ d.required_piece_count = K ∧
  d.matrix.cols = K + L ∧ d.matrix.num_pieces_coded_together = K ∧
  rowsWF (K + L) d.matrix.elements ∧ matCD D K L d.matrix.elements ∧
  d.matrix.rank ≤ K ∧
  (d.matrix.rank = K → ∀ t c, t < K → c < K →
    getE d.matrix.elements t c = if c = t then 1 else 0)

theorem allBelow_iff (f : Nat → Bool) :
    ∀ n, allBelow f n = true ↔ ∀ i, i < n → f i = true := by
  intro n
  induction n with
  | zero => simp [allBelow]
  | succ n ih =>
    simp only [allBelow, Bool.and_eq_true, ih]
    constructor
    · rintro ⟨hn, h⟩ i hi
      rcases Nat.lt_succ_iff_lt_or_eq.mp hi with h' | rfl
      · exact h i h'
      · exact hn
    · intro h
      exact ⟨h n (Nat.lt_succ_self n), fun i hi => h i (Nat.lt_succ_of_lt hi)⟩

set_option maxHeartbeats 4000000 in
theorem log_table_eq : GF256_LOG_TABLE = (List.range 256).map logF := by decide

set_option maxHeartbeats 4000000 in
theorem exp_table_eq : GF256_EXP_TABLE = (List.range 510).map expF := by decide

set_option maxHeartbeats 4000000 in
theorem gmul_two_check : allBelow (fun x => gmulF 2 x == xtime x) 256 = true := by
  decide

set_option maxHeartbeats 4000000 in
theorem table_facts_check :
    allBelow (fun a =>
      (logF a ≤ 254 : Bool) && (a == 0 || expF (logF a) == a)) 256 = true ∧
    allBelow (fun i => (expF i < 256 : Bool) && (expF i != 0)) 510 = true ∧
    allBelow (fun i => logF (expF i) == i) 255 = true ∧
    allBelow (fun i => expF (255 + i) == expF i) 254 = true := by
  refine ⟨by decide, by decide, by decide, by decide⟩

theorem getD_map_range (f : Nat → Nat) (n a : Nat) (ha : a < n) :
    ((List.range n).map f).getD a 0 = f a := by
  rw [List.getD_eq_getElem?_getD, List.getElem?_map, List.getElem?_range ha]
  rfl

theorem logT_eq (a : Nat) (ha : a < 256) : logT a = logF a := by
  rw [logT, log_table_eq, getD_map_range _ _ _ ha]

theorem expT_eq (i : Nat) (hi : i < 510) : expT i = expF i := by
  rw [expT, exp_table_eq, getD_map_range _ _ _ hi]

theorem logF_le (a : Nat) (ha : a < 256) : logF a ≤ 254 := by
  have := (allBelow_iff _ 256).mp table_facts_check.1 a ha
  simp only [Bool.and_eq_true, decide_eq_true_eq] at this
  exact this.1

theorem expF_lt (i : Nat) (hi : i < 510) : expF i < 256 := by
  have := (allBelow_iff _ 510).mp table_facts_check.2.1 i hi
  simp only [Bool.and_eq_true, decide_eq_true_eq, bne_iff_ne] at this
  exact this.1

theorem expF_ne (i : Nat) (hi : i < 510) : expF i ≠ 0 := by
  have := (allBelow_iff _ 510).mp table_facts_check.2.1 i hi
  simp only [Bool.and_eq_true, decide_eq_true_eq, bne_iff_ne] at this
  exact this.2

theorem expF_logF (a : Nat) (ha : a < 256) (hne : a ≠ 0) : expF (logF a) = a := by
  have := (allBelow_iff _ 256).mp table_facts_check.1 a ha
  simp only [Bool.and_eq_true, Bool.or_eq_true, decide_eq_true_eq, beq_iff_eq] at this
  rcases this.2 with h | h
  · exact absurd h hne
  · exact h

theorem logF_expF (i : Nat) (hi : i < 255) : logF (expF i) = i := by
  have := (allBelow_iff _ 255).mp table_facts_check.2.2.1 i hi
  simpa using this

theorem expF_period (i : Nat) (hi : i < 254) : expF (255 + i) = expF i := by
  have := (allBelow_iff _ 254).mp table_facts_check.2.2.2 i hi
  simpa using this

theorem gmulF_two (x : Nat) (hx : x < 256) : gmulF 2 x = xtime x := by
  have := (allBelow_iff _ 256).mp gmul_two_check x hx
  simpa using this

theorem expF_mod (s : Nat) (hs : s ≤ 508) : expF s = expF (s % 255) := by
  rcases Nat.lt_or_ge s 255 with h | h
  · rw [Nat.mod_eq_of_lt h]
  · have h1 : s - 255 < 254 := by omega
    have h2 : s % 255 = s - 255 := by omega
    have h3 := expF_period (s - 255) h1
    rw [h2, ← h3]
    congr 1
    omega

theorem gmul_eq_expF (a b : Nat) (ha : a < 256) (hb : b < 256) (ha0 : a ≠ 0) (hb0 : b ≠ 0) :
    gmul a b = expF ((logF a + logF b) % 255) := by
  have hla := logF_le a ha
  have hlb := logF_le b hb
  rw [gmul, if_neg (by simp [ha0, hb0]), logT_eq a ha, logT_eq b hb,
    expT_eq _ (by omega), expF_mod _ (by omega)]

theorem gmul_zero_left (b : Nat) : gmul 0 b = 0 := by simp [gmul]

theorem gmul_zero_right (a : Nat) : gmul a 0 = 0 := by simp [gmul]

theorem gmul_comm (a b : Nat) : gmul a b = gmul b a := by
  unfold gmul
  rw [Nat.add_comm, Bool.or_comm]

theorem gmul_ne_zero (a b : Nat) (ha : a < 256) (hb : b < 256) (ha0 : a ≠ 0) (hb0 : b ≠ 0) :
    gmul a b ≠ 0 := by
  rw [gmul_eq_expF a b ha hb ha0 hb0]
  exact expF_ne _ (by have := Nat.mod_lt (logF a + logF b) (y := 255) (by omega); omega)

theorem gmul_eq_zero_iff (a b : Nat) (ha : a < 256) (hb : b < 256) :
    gmul a b = 0 ↔ a = 0 ∨ b = 0 := by
  constructor
  · intro h
    by_contra hc
    push_neg at hc
    exact gmul_ne_zero a b ha hb hc.1 hc.2 h
  · rintro (rfl | rfl)
    · exact gmul_zero_left b
    · exact gmul_zero_right a

theorem gmul_lt (a b : Nat) (ha : a < 256) (hb : b < 256) : gmul a b < 256 := by
  by_cases ha0 : a = 0
  · simp [ha0, gmul_zero_left]
  by_cases hb0 : b = 0
  · simp [hb0, gmul_zero_right]
  rw [gmul_eq_expF a b ha hb ha0 hb0]
  exact expF_lt _ (by have := Nat.mod_lt (logF a + logF b) (y := 255) (by omega); omega)

theorem logF_gmul (a b : Nat) (ha : a < 256) (hb : b < 256) (ha0 : a ≠ 0) (hb0 : b ≠ 0) :
    logF (gmul a b) = (logF a + logF b) % 255 := by
  rw [gmul_eq_expF a b ha hb ha0 hb0]
  exact logF_expF _ (Nat.mod_lt _ (by omega))

theorem logF_one : logF 1 = 0 := by decide

theorem gmul_one_right (a : Nat) (ha : a < 256) : gmul a 1 = a := by
  by_cases ha0 : a = 0
  · simp [ha0, gmul_zero_left]
  rw [gmul_eq_expF a 1 ha (by omega) ha0 (by omega), logF_one, Nat.add_zero,
    Nat.mod_eq_of_lt (by have := logF_le a ha; omega)]
  exact expF_logF a ha ha0

theorem gmul_one_left (b : Nat) (hb : b < 256) : gmul 1 b = b := by
  rw [gmul_comm]; exact gmul_one_right b hb

theorem gmul_assoc (a b c : Nat) (ha : a < 256) (hb : b < 256) (hc : c < 256) :
    gmul (gmul a b) c = gmul a (gmul b c) := by
  by_cases ha0 : a = 0
  · simp [ha0, gmul_zero_left]
  by_cases hb0 : b = 0
  · simp [hb0, gmul_zero_left, gmul_zero_right]
  by_cases hc0 : c = 0
  · simp [hc0, gmul_zero_right]
  have hab := gmul_lt a b ha hb
  have hbc := gmul_lt b c hb hc
  have hab0 := gmul_ne_zero a b ha hb ha0 hb0
  have hbc0 := gmul_ne_zero b c hb hc hb0 hc0
  rw [gmul_eq_expF _ c hab hc hab0 hc0, gmul_eq_expF a _ ha hbc ha0 hbc0,
    logF_gmul a b ha hb ha0 hb0, logF_gmul b c hb hc hb0 hc0,
    Nat.mod_add_mod, Nat.add_mod_mod, Nat.add_assoc]

theorem ginvD_eq (a : Nat) (ha0 : a ≠ 0) : ginvD a = expT (255 - logT a) := by
  simp [ginvD, ginv, ha0]

theorem ginvD_lt (a : Nat) (ha : a < 256) (ha0 : a ≠ 0) : ginvD a < 256 := by
  rw [ginvD_eq a ha0, logT_eq a ha, expT_eq _ (by have := logF_le a ha; omega)]
  exact expF_lt _ (by have := logF_le a ha; omega)

theorem ginvD_ne_zero (a : Nat) (ha : a < 256) (ha0 : a ≠ 0) : ginvD a ≠ 0 := by
  rw [ginvD_eq a ha0, logT_eq a ha, expT_eq _ (by have := logF_le a ha; omega)]
  exact expF_ne _ (by have := logF_le a ha; omega)

theorem gmul_ginvD (a : Nat) (ha : a < 256) (ha0 : a ≠ 0) : gmul a (ginvD a) = 1 := by
  have hla := logF_le a ha
  rw [ginvD_eq a ha0, logT_eq a ha, expT_eq _ (by omega)]
  by_cases hla0 : logF a = 0
  · have h1 : a = 1 := by
      have := expF_logF a ha ha0
      rw [hla0] at this
      simpa [expF] using this.symm
    subst h1
    rw [hla0]
    decide
  · have h1 : expF (255 - logF a) ≠ 0 := expF_ne _ (by omega)
    have h2 : expF (255 - logF a) < 256 := expF_lt _ (by omega)
    rw [gmul_eq_expF a _ ha h2 ha0 h1, logF_expF _ (by omega)]
    have h3 : (logF a + (255 - logF a)) % 255 = 0 := by omega
    rw [h3]
    decide

theorem gmul_gdivD (d s : Nat) (hd : d < 256) (hs : s < 256) (hs0 : s ≠ 0) :
    gmul s (gdivD d s) = d := by
  have hi0 := ginvD_ne_zero s hs hs0
  have hil := ginvD_lt s hs hs0
  have h1 : gdivD d s = gmul d (ginvD s) := by simp [gdivD, ginv, ginvD, hs0]
  rw [h1, gmul_comm s _, gmul_assoc d (ginvD s) s hd hil hs, gmul_comm (ginvD s) s,
    gmul_ginvD s hs hs0, gmul_one_right d hd]

theorem xor_lt_256 (a b : Nat) (ha : a < 256) (hb : b < 256) : a ^^^ b < 256 :=
  Nat.xor_lt_two_pow (n := 8) ha hb

theorem shiftLeft_one_xor (a b : Nat) : (a ^^^ b) <<< 1 = a <<< 1 ^^^ b <<< 1 := by
  apply Nat.eq_of_testBit_eq
  intro j
  simp only [Nat.testBit_shiftLeft, Nat.testBit_xor]
  cases a.testBit (j - 1) <;> cases b.testBit (j - 1) <;> cases decide (j ≥ 1) <;> rfl

theorem and255_xor (x y : Nat) : (x ^^^ y) &&& 255 = (x &&& 255) ^^^ (y &&& 255) := by
  apply Nat.eq_of_testBit_eq
  intro j
  simp only [Nat.testBit_and, Nat.testBit_xor]
  cases x.testBit j <;> cases y.testBit j <;> cases Nat.testBit 255 j <;> rfl

theorem xor_interchange (x u y v : Nat) :
    (x ^^^ u) ^^^ (y ^^^ v) = (x ^^^ y) ^^^ (u ^^^ v) := by
  apply Nat.eq_of_testBit_eq
  intro j
  simp only [Nat.testBit_xor]
  cases x.testBit j <;> cases u.testBit j <;> cases y.testBit j <;> cases v.testBit j <;> rfl

theorem xtime_linear (b c : Nat) : xtime (b ^^^ c) = xtime b ^^^ xtime c := by
  unfold xtime
  rw [shiftLeft_one_xor, and255_xor, Nat.testBit_xor, xor_interchange]
  congr 1
  cases hb : b.testBit 7 <;> cases hc : c.testBit 7 <;> simp [hb, hc]

theorem xtime_lt (b : Nat) : xtime b < 256 := by
  unfold xtime
  have h1 : (b <<< 1) &&& 255 < 256 := by
    have := Nat.and_le_right (n := b <<< 1) (m := 255)
    omega
  have h2 : (if b.testBit 7 then 29 else 0) < 256 := by
    by_cases h : b.testBit 7 <;> simp [h]
  exact xor_lt_256 _ _ h1 h2

theorem gmul_eq_gmulF (a b : Nat) (ha : a < 256) (hb : b < 256) : gmul a b = gmulF a b := by
  unfold gmul gmulF
  by_cases h : a = 0 ∨ b = 0
  · have : (a = 0 || b = 0) = true := by
      rcases h with h | h <;> simp [h]
    simp [this]
  · push_neg at h
    have hla := logF_le a ha
    have hlb := logF_le b hb
    have : (a = 0 || b = 0) = false := by simp [h.1, h.2]
    simp only [this, Bool.false_eq_true, if_false]
    rw [logT_eq a ha, logT_eq b hb, expT_eq _ (by omega)]

theorem gmul_two (x : Nat) (hx : x < 256) : gmul 2 x = xtime x := by
  rw [gmul_eq_gmulF 2 x (by omega) hx]
  exact gmulF_two x hx

theorem logF_two : logF 2 = 1 := by decide

theorem expF_zero : expF 0 = 1 := by decide

theorem gmul_two_expF (n : Nat) (hn : n ≤ 254) : gmul 2 (expF n) = expF (n + 1) := by
  have he := expF_lt n (by omega)
  have h0 := expF_ne n (by omega)
  rw [gmul_eq_expF 2 (expF n) (by omega) he (by omega) h0, logF_two,
    logF_expF n (by omega), ← expF_mod (1 + n) (by omega), Nat.add_comm]

theorem gmul_expF_eq_xtimes (n x : Nat) (hn : n ≤ 254) (hx : x < 256) :
    gmul (expF n) x = xtimes n x := by
  induction n with
  | zero =>
    rw [expF_zero, gmul_one_left x hx]
    rfl
  | succ n ih =>
    have hn' : n ≤ 254 := by omega
    have he := expF_lt n (by omega)
    rw [← gmul_two_expF n hn', gmul_assoc 2 (expF n) x (by omega) he hx, ih hn',
      gmul_two _ (by
        rw [← ih hn']
        exact gmul_lt _ _ he hx)]
    rfl

theorem xtimes_linear (n b c : Nat) : xtimes n (b ^^^ c) = xtimes n b ^^^ xtimes n c := by
  induction n with
  | zero => rfl
  | succ n ih =>
    show xtime (xtimes n (b ^^^ c)) = xtime (xtimes n b) ^^^ xtime (xtimes n c)
    rw [ih, xtime_linear]

theorem gmul_xor_right (a b c : Nat) (ha : a < 256) (hb : b < 256) (hc : c < 256) :
    gmul a (b ^^^ c) = gmul a b ^^^ gmul a c := by
  by_cases ha0 : a = 0
  · simp [ha0, gmul_zero_left]
  have hrep := expF_logF a ha ha0
  have hla := logF_le a ha
  calc gmul a (b ^^^ c) = gmul (expF (logF a)) (b ^^^ c) := by rw [hrep]
    _ = xtimes (logF a) (b ^^^ c) := gmul_expF_eq_xtimes _ _ hla (xor_lt_256 b c hb hc)
    _ = xtimes (logF a) b ^^^ xtimes (logF a) c := xtimes_linear _ b c
    _ = gmul a b ^^^ gmul a c := by
        rw [← gmul_expF_eq_xtimes _ _ hla hb, ← gmul_expF_eq_xtimes _ _ hla hc, hrep]

theorem gmul_xor_left (a b c : Nat) (ha : a < 256) (hb : b < 256) (hc : c < 256) :
    gmul (a ^^^ b) c = gmul a c ^^^ gmul b c := by
  rw [gmul_comm _ c, gmul_comm a c, gmul_comm b c]
  exact gmul_xor_right c a b hc ha hb

theorem gfSum_zero (f : Nat → Nat) : gfSum 0 f = 0 := rfl

theorem gfSum_succ (n : Nat) (f : Nat → Nat) : gfSum (n + 1) f = gfSum n f ^^^ f n := by
  unfold gfSum
  rw [List.range_succ, List.foldl_append]
  rfl

theorem gfSum_congr (n : Nat) (f g : Nat → Nat) (h : ∀ i, i < n → f i = g i) :
    gfSum n f = gfSum n g := by
  induction n with
  | zero => rfl
  | succ n ih =>
    rw [gfSum_succ, gfSum_succ, ih (fun i hi => h i (by omega)), h n (by omega)]

theorem gfSum_xor (n : Nat) (f g : Nat → Nat) :
    gfSum n (fun i => f i ^^^ g i) = gfSum n f ^^^ gfSum n g := by
  induction n with
  | zero => simp [gfSum]
  | succ n ih =>
    rw [gfSum_succ, gfSum_succ, gfSum_succ, ih, xor_interchange]

theorem gfSum_lt (n : Nat) (f : Nat → Nat) (h : ∀ i, i < n → f i < 256) :
    gfSum n f < 256 := by
  induction n with
  | zero => simp [gfSum_zero]
  | succ n ih =>
    rw [gfSum_succ]
    exact xor_lt_256 _ _ (ih (fun i hi => h i (by omega))) (h n (by omega))

theorem gfSum_zero_fun (n : Nat) : gfSum n (fun _ => 0) = 0 := by
  induction n with
  | zero => rfl
  | succ n ih => rw [gfSum_succ, ih]; rfl

theorem gfSum_gmul (n s : Nat) (f : Nat → Nat) (hs : s < 256)
    (hf : ∀ i, i < n → f i < 256) :
    gmul (gfSum n f) s = gfSum n (fun i => gmul (f i) s) := by
  induction n with
  | zero => simp [gfSum_zero, gmul_zero_left]
  | succ n ih =>
    rw [gfSum_succ, gfSum_succ, ← ih (fun i hi => hf i (by omega)),
      gmul_xor_left _ _ s (gfSum_lt n f (fun i hi => hf i (by omega))) (hf n (by omega)) hs]

theorem gfSum_delta (n t x : Nat) (ht : t < n) :
    gfSum n (fun i => if i = t then x else 0) = x := by
  induction n with
  | zero => omega
  | succ n ih =>
    rw [gfSum_succ]
    rcases Nat.lt_or_ge t n with h | h
    · rw [ih h, if_neg (by omega), Nat.xor_zero]
    · have ht' : n = t := by omega
      subst ht'
      rw [if_pos rfl]
      have h2 : gfSum n (fun i => if i = n then x else 0) = gfSum n (fun _ => 0) :=
        gfSum_congr n _ _ (fun i hi => by rw [if_neg (by omega)])
      rw [h2, gfSum_zero_fun, Nat.zero_xor]

theorem chunksExactAux_nil_list (sz : Nat) : ∀ fuel, chunksExactAux sz fuel [] = []
  | 0 => rfl
  | fuel + 1 => by
    rw [chunksExactAux, if_neg (by simp only [List.length_nil]; omega)]

theorem chunksExactAux_congr (sz : Nat) :
    ∀ (fuel : Nat) (fuel' : Nat) (l : List Nat), l.length ≤ fuel → l.length ≤ fuel' →
      chunksExactAux sz fuel l = chunksExactAux sz fuel' l := by
  intro fuel
  induction fuel with
  | zero =>
    intro fuel' l hl hl'
    have hl0 : l = [] := List.length_eq_zero.mp (by omega)
    subst hl0
    rw [chunksExactAux_nil_list, chunksExactAux_nil_list]
  | succ fuel ih =>
    intro fuel' l hl hl'
    match fuel' with
    | 0 =>
      have hl0 : l = [] := List.length_eq_zero.mp (by omega)
      subst hl0
      rw [chunksExactAux_nil_list, chunksExactAux_nil_list]
    | fuel' + 1 =>
      rw [chunksExactAux, chunksExactAux]
      by_cases hc : 0 < sz ∧ sz ≤ l.length
      · rw [if_pos hc, if_pos hc,
          ih fuel' (l.drop sz) (by rw [List.length_drop]; omega)
            (by rw [List.length_drop]; omega)]
      · rw [if_neg hc, if_neg hc]

theorem chunksExact_nil (sz : Nat) (l : List Nat) (h : l.length < sz ∨ sz = 0) :
    chunksExact sz l = [] := by
  unfold chunksExact
  match hl : l.length with
  | 0 => rfl
  | n + 1 =>
    rw [chunksExactAux, if_neg (by omega)]

theorem chunksExact_cons (sz : Nat) (l : List Nat) (h0 : 0 < sz) (h : sz ≤ l.length) :
    chunksExact sz l = l.take sz :: chunksExact sz (l.drop sz) := by
  unfold chunksExact
  have h1 : 1 ≤ l.length := by omega
  have hlen : l.length = (l.length - 1) + 1 := by omega
  rw [hlen, chunksExactAux, if_pos ⟨h0, by omega⟩]
  rw [chunksExactAux_congr sz (l.length - 1) (l.drop sz).length (l.drop sz)
    (by rw [List.length_drop]; omega) le_rfl]

theorem getD_map (f : Nat → Nat) (l : List Nat) (j : Nat) (hj : j < l.length) :
    (l.map f).getD j 0 = f (l.getD j 0) := by
  rw [List.getD_eq_getElem?_getD, List.getD_eq_getElem?_getD, List.getElem?_map,
    List.getElem?_eq_getElem hj]
  rfl

theorem getD_zipWith (f : Nat → Nat → Nat) (a b : List Nat) (j : Nat)
    (ha : j < a.length) (hb : j < b.length) :
    (List.zipWith f a b).getD j 0 = f (a.getD j 0) (b.getD j 0) := by
  rw [List.getD_eq_getElem?_getD, List.getD_eq_getElem?_getD, List.getD_eq_getElem?_getD,
    List.getElem?_zipWith, List.getElem?_eq_getElem ha, List.getElem?_eq_getElem hb]
  rfl

theorem getD_drop (l : List Nat) (n j : Nat) :
    (l.drop n).getD j 0 = l.getD (n + j) 0 := by
  rw [List.getD_eq_getElem?_getD, List.getD_eq_getElem?_getD, List.getElem?_drop]

theorem getD_take (l : List Nat) (n j : Nat) (hj : j < n) :
    (l.take n).getD j 0 = l.getD j 0 := by
  rw [List.getD_eq_getElem?_getD, List.getD_eq_getElem?_getD, List.getElem?_take,
    if_pos hj]

theorem getD_append_left (a b : List Nat) (j : Nat) (hj : j < a.length) :
    (a ++ b).getD j 0 = a.getD j 0 := by
  rw [List.getD_eq_getElem?_getD, List.getD_eq_getElem?_getD, List.getElem?_append,
    if_pos hj]

theorem getD_append_right (a b : List Nat) (j : Nat) (hj : a.length ≤ j) :
    (a ++ b).getD j 0 = b.getD (j - a.length) 0 := by
  rw [List.getD_eq_getElem?_getD, List.getD_eq_getElem?_getD, List.getElem?_append,
    if_neg (by omega)]

theorem getD_oob (l : List Nat) (j : Nat) (hj : l.length ≤ j) : l.getD j 0 = 0 := by
  rw [List.getD_eq_getElem?_getD, List.getElem?_eq_none (by omega)]
  rfl

theorem getD_replicate_zero (n j : Nat) : (List.replicate n 0).getD j 0 = 0 := by
  rcases Nat.lt_or_ge j n with h | h
  · rw [List.getD_eq_getElem?_getD, List.getElem?_eq_getElem (by simpa using h)]
    simp [List.getElem_replicate]
  · exact getD_oob _ _ (by simpa using h)

theorem gfSum_shift (n : Nat) (f : Nat → Nat) :
    gfSum (n + 1) f = f 0 ^^^ gfSum n (fun i => f (i + 1)) := by
  induction n with
  | zero =>
    rw [gfSum_succ, gfSum_zero, gfSum_zero, Nat.zero_xor, Nat.xor_zero]
  | succ n ih =>
    rw [gfSum_succ, ih, gfSum_succ _ (fun i => f (i + 1)),
      ← Nat.xor_assoc]

theorem chunksExact_length (sz : Nat) (h0 : 0 < sz) :
    ∀ (n : Nat) (l : List Nat), l.length ≤ n →
      (chunksExact sz l).length = l.length / sz := by
  intro n
  induction n with
  | zero =>
    intro l hl
    rw [chunksExact_nil sz l (by omega)]
    rw [List.length_nil, Nat.div_eq_of_lt (by omega)]
  | succ n ih =>
    intro l hl
    by_cases hc : sz ≤ l.length
    · rw [chunksExact_cons sz l h0 hc, List.length_cons,
        ih (l.drop sz) (by rw [List.length_drop]; omega), List.length_drop,
        Nat.div_eq_sub_div h0 hc]
    · rw [chunksExact_nil sz l (by omega), List.length_nil,
        Nat.div_eq_of_lt (by omega)]

theorem chunksExact_getD (sz : Nat) (h0 : 0 < sz) :
    ∀ (n : Nat) (l : List Nat) (k : Nat), l.length ≤ n → k < l.length / sz →
      (chunksExact sz l).getD k [] = (l.drop (k * sz)).take sz := by
  intro n
  induction n with
  | zero =>
    intro l k hl hk
    have hl0 : l = [] := List.length_eq_zero.mp (by omega)
    subst hl0
    simp at hk
  | succ n ih =>
    intro l k hl hk
    have hsz : sz ≤ l.length := by
      by_contra hc
      rw [Nat.div_eq_of_lt (by omega)] at hk
      omega
    rw [chunksExact_cons sz l h0 hsz]
    match k with
    | 0 => simp
    | k + 1 =>
      rw [List.getD_cons_succ,
        ih (l.drop sz) k (by rw [List.length_drop]; omega)
          (by rw [List.length_drop]; rw [Nat.div_eq_sub_div h0 hsz] at hk; omega),
        List.drop_drop]
      congr 2
      ring

theorem chunksExact_mem_length (sz : Nat) (h0 : 0 < sz) :
    ∀ (n : Nat) (l : List Nat), l.length ≤ n →
      ∀ ch ∈ chunksExact sz l, ch.length = sz := by
  intro n
  induction n with
  | zero =>
    intro l hl ch hch
    rw [chunksExact_nil sz l (by omega)] at hch
    simp at hch
  | succ n ih =>
    intro l hl ch hch
    by_cases hc : sz ≤ l.length
    · rw [chunksExact_cons sz l h0 hc] at hch
      rcases List.mem_cons.mp hch with rfl | h
      · rw [List.length_take]; omega
      · exact ih (l.drop sz) (by rw [List.length_drop]; omega) ch h
    · rw [chunksExact_nil sz l (by omega)] at hch
      simp at hch

theorem chunksExact_flatten (sz : Nat) (h0 : 0 < sz) :
    ∀ (n : Nat) (l : List Nat), l.length ≤ n →
      (chunksExact sz l).flatten = l.take (l.length / sz * sz) := by
  intro n
  induction n with
  | zero =>
    intro l hl
    have hl0 : l = [] := List.length_eq_zero.mp (by omega)
    subst hl0
    rw [chunksExact_nil sz [] (by simp; omega)]
    simp
  | succ n ih =>
    intro l hl
    by_cases hc : sz ≤ l.length
    · rw [chunksExact_cons sz l h0 hc, List.flatten_cons,
        ih (l.drop sz) (by rw [List.length_drop]; omega), List.length_drop,
        Nat.div_eq_sub_div h0 hc]
      have harith : ((l.length - sz) / sz + 1) * sz = sz + (l.length - sz) / sz * sz := by
        ring
      rw [harith, List.take_add]
    · rw [chunksExact_nil sz l (by omega), Nat.div_eq_of_lt (by omega)]
      simp

theorem list_ext_getD (a b : List Nat) (hlen : a.length = b.length)
    (h : ∀ j, j < a.length → a.getD j 0 = b.getD j 0) : a = b := by
  apply List.ext_getElem hlen
  intro j hja hjb
  have := h j hja
  rwa [List.getD_eq_getElem?_getD, List.getD_eq_getElem?_getD,
    List.getElem?_eq_getElem hja, List.getElem?_eq_getElem hjb] at this

theorem zip_getD : ∀ (a : List (List Nat)) (b : List Nat) (i : Nat),
    i < a.length → i < b.length →
    (List.zip a b).getD i ([], 0) = (a.getD i [], b.getD i 0)
  | _ :: _, _ :: _, 0, _, _ => rfl
  | x :: xs, y :: ys, i + 1, h1, h2 => by
    simpa using zip_getD xs ys i (by simpa using h1) (by simpa using h2)
  | [], _, _, h, _ => absurd h (by simp)
  | _ :: _, [], _, _, h => absurd h (by simp)

theorem code_fold_spec (pairs : List (List Nat × Nat)) :
    ∀ (acc : List Nat), (∀ p ∈ pairs, p.1.length = acc.length) →
    (pairs.foldl
        (fun acc pc => List.zipWith (fun a b => a ^^^ b) acc (pc.1.map (fun s => gmul s pc.2)))
        acc).length = acc.length ∧
    ∀ j, j < acc.length →
      (pairs.foldl
        (fun acc pc => List.zipWith (fun a b => a ^^^ b) acc (pc.1.map (fun s => gmul s pc.2)))
        acc).getD j 0 =
      acc.getD j 0 ^^^
        gfSum pairs.length
          (fun i => gmul ((pairs.getD i ([], 0)).1.getD j 0) (pairs.getD i ([], 0)).2) := by
  induction pairs with
  | nil =>
    intro acc _
    refine ⟨rfl, fun j hj => ?_⟩
    simp only [List.length_nil]
    rw [gfSum_zero, Nat.xor_zero]
    rfl
  | cons p ps ih =>
    intro acc hlen
    have hp : p.1.length = acc.length := hlen p (by simp)
    have hacc' : (List.zipWith (fun a b => a ^^^ b) acc (p.1.map (fun s => gmul s p.2))).length
        = acc.length := by
      rw [List.length_zipWith, List.length_map, hp]
      omega
    have hlen' : ∀ q ∈ ps, q.1.length =
        (List.zipWith (fun a b => a ^^^ b) acc (p.1.map (fun s => gmul s p.2))).length := by
      intro q hq
      rw [hacc']
      exact hlen q (by simp [hq])
    obtain ⟨ihlen, ihget⟩ := ih _ hlen'
    constructor
    · rw [List.foldl_cons, ihlen, hacc']
    · intro j hj
      rw [List.foldl_cons, ihget j (by rw [hacc']; omega)]
      rw [getD_zipWith _ acc _ j hj (by rw [List.length_map, hp]; omega),
        getD_map _ _ j (by rw [hp]; omega)]
      rw [List.length_cons, gfSum_shift]
      have e0 : ((p :: ps).getD 0 ([], 0)) = p := rfl
      have es : ∀ i, ((p :: ps).getD (i + 1) ([], 0)) = ps.getD i ([], 0) := fun i => rfl
      simp only [e0, es]
      rw [Nat.xor_assoc]

theorem payloadSpec_length (D : List Nat) (K L : Nat) (c : List Nat) :
    (payloadSpec D K L c).length = L := by
  rw [payloadSpec, List.length_map, List.length_range]

theorem payloadSpec_getD (D : List Nat) (K L : Nat) (c : List Nat) (j : Nat) (hj : j < L) :
    (payloadSpec D K L c).getD j 0 =
      gfSum K (fun i => gmul (D.getD (i * L + j) 0) (c.getD i 0)) := by
  rw [payloadSpec]
  have : (List.range L).getD j 0 = j := by
    rw [List.getD_eq_getElem?_getD, List.getElem?_range hj]
    rfl
  rw [getD_map _ _ j (by simpa using hj), this]

theorem code_with_coding_vector_eq (e : Encoder) (c : List Nat)
    (hdata : e.data.length = e.piece_count * e.piece_byte_len)
    (hL : 0 < e.piece_byte_len)
    (hc : c.length = e.piece_count) :
    e.code_with_coding_vector c =
      .ok (codedRow e.data e.piece_count e.piece_byte_len c) := by
  unfold Encoder.code_with_coding_vector
  rw [if_neg (by omega)]
  congr 1
  unfold codedRow
  congr 1
  have hchunklen : (chunksExact e.piece_byte_len e.data).length = e.piece_count := by
    rw [chunksExact_length e.piece_byte_len hL e.data.length e.data le_rfl, hdata,
      Nat.mul_div_cancel _ hL]
  have hmemlen : ∀ p ∈ (chunksExact e.piece_byte_len e.data).zip c,
      p.1.length = (List.replicate e.piece_byte_len 0).length := by
    intro p hp
    have h1 := List.of_mem_zip hp
    rw [List.length_replicate]
    exact chunksExact_mem_length e.piece_byte_len hL e.data.length e.data le_rfl p.1 h1.1
  obtain ⟨hlen, hget⟩ := code_fold_spec ((chunksExact e.piece_byte_len e.data).zip c) _ hmemlen
  apply list_ext_getD
  · rw [hlen, List.length_replicate, payloadSpec_length]
  · intro j hj
    rw [hlen, List.length_replicate] at hj
    rw [hget j (by rw [List.length_replicate]; omega), getD_replicate_zero, Nat.zero_xor,
      payloadSpec_getD _ _ _ _ j hj]
    rw [List.length_zip, hchunklen, hc, Nat.min_self]
    apply gfSum_congr
    intro i hi
    rw [zip_getD _ _ i (by omega) (by omega),
      chunksExact_getD e.piece_byte_len hL e.data.length e.data i le_rfl
        (by rw [hdata, Nat.mul_div_cancel _ hL]; omega)]
    rw [getD_take _ _ _ hj, getD_drop]

/-- C6: for an encoder with piece count `K`, padded data `D` and piece length
`L`, `code_with_coding_vector c` fails with `CodingVectorLengthMismatch`
exactly when `|c| ≠ K`; otherwise it returns a buffer of `K + L` bytes whose
first `K` bytes copy `c` and whose last `L` bytes are
`sum_{i<K} c[i] * D[i*L .. i*L+L]` over GF(2^8). -/
theorem C6_encoder_coding_contract (e : Encoder) (c : List Nat)
    (hdata : e.data.length = e.piece_count * e.piece_byte_len)
    (hL : 0 < e.piece_byte_len) :
    (c.length ≠ e.piece_count ↔
      e.code_with_coding_vector c = .error .CodingVectorLengthMismatch) ∧
    (c.length = e.piece_count →
      ∃ out, e.code_with_coding_vector c = .ok out ∧
        out.length = e.piece_count + e.piece_byte_len ∧
        out.take e.piece_count = c ∧
        ∀ j, j < e.piece_byte_len →
          out.getD (e.piece_count + j) 0 =
            gfSum e.piece_count
              (fun i => gmul (c.getD i 0) (e.data.getD (i * e.piece_byte_len + j) 0))) := by
  constructor
  · constructor
    · intro hne
      unfold Encoder.code_with_coding_vector
      rw [if_pos hne]
    · intro herr
      intro hc
      rw [code_with_coding_vector_eq e c hdata hL hc] at herr
      exact Except.noConfusion herr
  · intro hc
    refine ⟨codedRow e.data e.piece_count e.piece_byte_len c,
      code_with_coding_vector_eq e c hdata hL hc, ?_, ?_, ?_⟩
    · rw [codedRow, List.length_append, payloadSpec_length, hc]
    · rw [codedRow, ← hc, List.take_left]
    · intro j hj
      rw [codedRow, getD_append_right c _ _ (by omega)]
      have : e.piece_count + j - c.length = j := by omega
      rw [this, payloadSpec_getD _ _ _ _ j hj]
      exact gfSum_congr _ _ _ (fun i hi => gmul_comm _ _)

/-- Witness for C6 at the encoder over `[1,2,3,4,5]` with `K = 3` (padded data
`[1,2,3,4,5,129]`, `L = 2`) and coding vector `[1,0,2]`. -/
theorem C6_encoder_coding_contract_witness :
    ((Encoder.mk [1, 2, 3, 4, 5, 129] 3 2).data.length =
      (Encoder.mk [1, 2, 3, 4, 5, 129] 3 2).piece_count *
        (Encoder.mk [1, 2, 3, 4, 5, 129] 3 2).piece_byte_len ∧
      0 < (Encoder.mk [1, 2, 3, 4, 5, 129] 3 2).piece_byte_len) ∧
    ((([1, 0, 2] : List Nat).length ≠ (Encoder.mk [1, 2, 3, 4, 5, 129] 3 2).piece_count ↔
      (Encoder.mk [1, 2, 3, 4, 5, 129] 3 2).code_with_coding_vector [1, 0, 2] =
        .error .CodingVectorLengthMismatch) ∧
    (([1, 0, 2] : List Nat).length = (Encoder.mk [1, 2, 3, 4, 5, 129] 3 2).piece_count →
      ∃ out, (Encoder.mk [1, 2, 3, 4, 5, 129] 3 2).code_with_coding_vector [1, 0, 2] = .ok out ∧
        out.length = (Encoder.mk [1, 2, 3, 4, 5, 129] 3 2).piece_count +
          (Encoder.mk [1, 2, 3, 4, 5, 129] 3 2).piece_byte_len ∧
        out.take (Encoder.mk [1, 2, 3, 4, 5, 129] 3 2).piece_count = [1, 0, 2] ∧
        ∀ j, j < (Encoder.mk [1, 2, 3, 4, 5, 129] 3 2).piece_byte_len →
          out.getD ((Encoder.mk [1, 2, 3, 4, 5, 129] 3 2).piece_count + j) 0 =
            gfSum (Encoder.mk [1, 2, 3, 4, 5, 129] 3 2).piece_count
              (fun i => gmul (([1, 0, 2] : List Nat).getD i 0)
                ((Encoder.mk [1, 2, 3, 4, 5, 129] 3 2).data.getD
                  (i * (Encoder.mk [1, 2, 3, 4, 5, 129] 3 2).piece_byte_len + j) 0)))) :=
  ⟨⟨by decide, by decide⟩,
    C6_encoder_coding_contract (Encoder.mk [1, 2, 3, 4, 5, 129] 3 2) [1, 0, 2]
      (by decide) (by decide)⟩

/-- C9: a piece whose length differs from `K + L` is rejected with
`InvalidPieceLength` (or `ReceivedAllPieces` when decoding is already
complete) and the decoder state — matrix, rank and both counters — is exactly
the state before the call. -/
theorem C9_decode_wrong_length_atomic (d : Decoder) (p : List Nat)
    (hlen : p.length ≠ d.get_full_coded_piece_byte_len) :
    (d.decode p).1 = d ∧
    (d.decode p).2 =
      some (if d.is_already_decoded then RLNCError.ReceivedAllPieces
            else RLNCError.InvalidPieceLength) := by
  unfold Decoder.decode
  by_cases hd : d.is_already_decoded
  · rw [if_pos hd, if_pos hd]
    exact ⟨rfl, rfl⟩
  · rw [if_neg hd, if_pos hlen, if_neg hd]
    exact ⟨rfl, rfl⟩

/-- Witness for C9: a fresh 1-piece decoder rejects the empty piece. -/
theorem C9_decode_wrong_length_atomic_witness :
    (([] : List Nat).length ≠
        (Decoder.mk (DecoderMatrix.mk 1 2 []) 1 1 0 0).get_full_coded_piece_byte_len) ∧
    ((Decoder.mk (DecoderMatrix.mk 1 2 []) 1 1 0 0).decode []).1 =
        Decoder.mk (DecoderMatrix.mk 1 2 []) 1 1 0 0 ∧
    ((Decoder.mk (DecoderMatrix.mk 1 2 []) 1 1 0 0).decode []).2 =
      some (if (Decoder.mk (DecoderMatrix.mk 1 2 []) 1 1 0 0).is_already_decoded
            then RLNCError.ReceivedAllPieces else RLNCError.InvalidPieceLength) :=
  ⟨by decide,
    C9_decode_wrong_length_atomic (Decoder.mk (DecoderMatrix.mk 1 2 []) 1 1 0 0) [] (by decide)⟩

/-- C7: on a not-yet-complete decoder and a piece of the correct length,
`decode` appends the row, runs `rref`, increments the received counter by one,
and returns `PieceNotUseful` exactly when the rank is unchanged (leaving the
useful counter unchanged); otherwise it stores the new rank in the useful
counter and returns ok. -/
theorem C7_decode_usefulness_signalling (d : Decoder) (p : List Nat)
    (hnc : d.is_already_decoded = false)
    (hcols : d.matrix.cols = d.get_full_coded_piece_byte_len)
    (hlen : p.length = d.get_full_coded_piece_byte_len) :
    ∃ m1, d.matrix.add_row p = .ok m1 ∧
      (d.decode p).1.matrix = m1.rref ∧
      (d.decode p).1.received_piece_count = d.received_piece_count + 1 ∧
      ((d.decode p).2 = some RLNCError.PieceNotUseful ↔ m1.rref.rank = d.matrix.rank) ∧
      (m1.rref.rank = d.matrix.rank →
        (d.decode p).1.useful_piece_count = d.useful_piece_count) ∧
      (m1.rref.rank ≠ d.matrix.rank →
        (d.decode p).1.useful_piece_count = m1.rref.rank ∧ (d.decode p).2 = none) := by
  have hrow : d.matrix.add_row p =
      .ok (DecoderMatrix.mk d.matrix.num_pieces_coded_together d.matrix.cols
            (d.matrix.elements ++ [p])) := by
    unfold DecoderMatrix.add_row
    rw [if_neg (by omega)]
  refine ⟨_, hrow, ?_⟩
  have hdec : d.decode p =
      (if d.matrix.rank =
          (DecoderMatrix.mk d.matrix.num_pieces_coded_together d.matrix.cols
            (d.matrix.elements ++ [p])).rref.rank then
        (Decoder.mk
          (DecoderMatrix.mk d.matrix.num_pieces_coded_together d.matrix.cols
            (d.matrix.elements ++ [p])).rref
          d.piece_byte_len d.required_piece_count (d.received_piece_count + 1)
          d.useful_piece_count, some RLNCError.PieceNotUseful)
      else
        (Decoder.mk
          (DecoderMatrix.mk d.matrix.num_pieces_coded_together d.matrix.cols
            (d.matrix.elements ++ [p])).rref
          d.piece_byte_len d.required_piece_count (d.received_piece_count + 1)
          (DecoderMatrix.mk d.matrix.num_pieces_coded_together d.matrix.cols
            (d.matrix.elements ++ [p])).rref.rank, none)) := by
    unfold Decoder.decode
    rw [if_neg (by simp [hnc]), if_neg (by omega), hrow]
  by_cases hrank :
      (DecoderMatrix.mk d.matrix.num_pieces_coded_together d.matrix.cols
        (d.matrix.elements ++ [p])).rref.rank = d.matrix.rank
  · rw [hdec, if_pos hrank.symm]
    exact ⟨rfl, rfl, by simp [hrank], fun _ => rfl, fun hne => absurd hrank hne⟩
  · rw [hdec, if_neg (fun h => hrank h.symm)]
    refine ⟨rfl, rfl, ?_, fun heq => absurd heq hrank, fun _ => ⟨rfl, rfl⟩⟩
    constructor
    · intro h
      exact Option.noConfusion h
    · intro heq
      exact absurd heq hrank

/-- Witness for C7: feeding the piece `[1, 7]` to a fresh decoder with
`K = L = 1`. -/
theorem C7_decode_usefulness_signalling_witness :
    ((Decoder.mk (DecoderMatrix.mk 1 2 []) 1 1 0 0).is_already_decoded = false ∧
      (Decoder.mk (DecoderMatrix.mk 1 2 []) 1 1 0 0).matrix.cols =
        (Decoder.mk (DecoderMatrix.mk 1 2 []) 1 1 0 0).get_full_coded_piece_byte_len ∧
      ([1, 7] : List Nat).length =
        (Decoder.mk (DecoderMatrix.mk 1 2 []) 1 1 0 0).get_full_coded_piece_byte_len) ∧
    ∃ m1, (Decoder.mk (DecoderMatrix.mk 1 2 []) 1 1 0 0).matrix.add_row [1, 7] = .ok m1 ∧
      ((Decoder.mk (DecoderMatrix.mk 1 2 []) 1 1 0 0).decode [1, 7]).1.matrix = m1.rref ∧
      ((Decoder.mk (DecoderMatrix.mk 1 2 []) 1 1 0 0).decode [1, 7]).1.received_piece_count =
        (Decoder.mk (DecoderMatrix.mk 1 2 []) 1 1 0 0).received_piece_count + 1 ∧
      (((Decoder.mk (DecoderMatrix.mk 1 2 []) 1 1 0 0).decode [1, 7]).2 =
          some RLNCError.PieceNotUseful ↔
        m1.rref.rank = (Decoder.mk (DecoderMatrix.mk 1 2 []) 1 1 0 0).matrix.rank) ∧
      (m1.rref.rank = (Decoder.mk (DecoderMatrix.mk 1 2 []) 1 1 0 0).matrix.rank →
        ((Decoder.mk (DecoderMatrix.mk 1 2 []) 1 1 0 0).decode [1, 7]).1.useful_piece_count =
          (Decoder.mk (DecoderMatrix.mk 1 2 []) 1 1 0 0).useful_piece_count) ∧
      (m1.rref.rank ≠ (Decoder.mk (DecoderMatrix.mk 1 2 []) 1 1 0 0).matrix.rank →
        ((Decoder.mk (DecoderMatrix.mk 1 2 []) 1 1 0 0).decode [1, 7]).1.useful_piece_count =
            m1.rref.rank ∧
          ((Decoder.mk (DecoderMatrix.mk 1 2 []) 1 1 0 0).decode [1, 7]).2 = none) :=
  ⟨⟨by decide, by decide, by decide⟩,
    C7_decode_usefulness_signalling (Decoder.mk (DecoderMatrix.mk 1 2 []) 1 1 0 0) [1, 7]
      (by decide) (by decide) (by decide)⟩

theorem recoder_new_short_of_nonempty (data : List Nat) (F K : Nat)
    (h0 : 0 < data.length) (hK : 0 < K) (hFK : K < F) (hshort : data.length < F) :
    Recoder.new data F K = .ub := by
  unfold Recoder.new
  rw [if_neg (by omega), if_neg (by omega), if_neg (by omega), if_neg (by omega)]
  rw [chunksExact_nil F data (by omega)]
  simp only [List.map_nil, List.flatten_nil]
  rfl

/-- C3: at `data = [1]`, `full_coded_piece_byte_len = 2`,
`num_pieces_coded_together = 1` — a nonempty input shorter than one full coded
piece — `Recoder::new` does not return `NotEnoughPiecesToRecode` as its
documentation promises; it reaches `unwrap_unchecked` on
`Err(DataLengthZero)` from the inner `Encoder::without_padding`, which is
undefined behaviour (the `ub` outcome of the model). The empty input does
return `NotEnoughPiecesToRecode`. -/
theorem C3_recoder_short_input_ub :
    Recoder.new [1] 2 1 = RecoderNewResult.ub ∧
    Recoder.new [1] 2 1 ≠ RecoderNewResult.err RLNCError.NotEnoughPiecesToRecode ∧
    Recoder.new [] 2 1 = RecoderNewResult.err RLNCError.NotEnoughPiecesToRecode := by
  refine ⟨?_, ?_, by decide⟩
  · exact recoder_new_short_of_nonempty [1] 2 1 (by decide) (by decide) (by decide) (by decide)
  · rw [recoder_new_short_of_nonempty [1] 2 1 (by decide) (by decide) (by decide) (by decide)]
    decide

theorem chunksExact_take_mul (sz : Nat) (h0 : 0 < sz) :
    ∀ (n : Nat) (l : List Nat), l.length ≤ n →
      chunksExact sz (l.take (l.length / sz * sz)) = chunksExact sz l := by
  intro n
  induction n with
  | zero =>
    intro l hl
    have hl0 : l = [] := List.length_eq_zero.mp (by omega)
    subst hl0
    simp
  | succ n ih =>
    intro l hl
    by_cases hc : sz ≤ l.length
    · have hq1 : 1 ≤ l.length / sz := (Nat.one_le_div_iff h0).mpr hc
      have hszq : sz ≤ l.length / sz * sz := by
        calc sz = 1 * sz := (Nat.one_mul sz).symm
        _ ≤ l.length / sz * sz := Nat.mul_le_mul_right sz hq1
      have hqle : l.length / sz * sz ≤ l.length := Nat.div_mul_le_self _ _
      have htlen : (l.take (l.length / sz * sz)).length = l.length / sz * sz := by
        rw [List.length_take]
        omega
      rw [chunksExact_cons sz (l.take (l.length / sz * sz)) h0 (by omega),
        chunksExact_cons sz l h0 hc]
      congr 1
      · rw [List.take_take]
        congr 1
        omega
      · rw [List.drop_take]
        have harith : l.length / sz * sz - sz = (l.drop sz).length / sz * sz := by
          rw [List.length_drop, Nat.div_eq_sub_div h0 hc]
          ring_nf
          omega
        rw [harith]
        exact ih (l.drop sz) (by rw [List.length_drop]; omega)
    · rw [Nat.div_eq_of_lt (by omega)]
      rw [chunksExact_nil sz l (by omega)]
      rw [chunksExact_nil sz _ (by rw [List.length_take]; omega)]

theorem flatten_map_length (g : List Nat → List Nat) (L : Nat) :
    ∀ (cs : List (List Nat)), (∀ ch ∈ cs, (g ch).length = L) →
      ((cs.map g).flatten).length = cs.length * L := by
  intro cs
  induction cs with
  | nil => intro _; simp
  | cons c cs ih =>
    intro h
    rw [List.map_cons, List.flatten_cons, List.length_append, h c (by simp),
      ih (fun ch hch => h ch (by simp [hch])), List.length_cons]
    ring

theorem without_padding_ok (data : List Nat) (count L : Nat)
    (hlen : data.length = count * L) (h0 : data.length ≠ 0) (hc : count ≠ 0) :
    Encoder.without_padding data count = .ok (Encoder.mk data count L) := by
  unfold Encoder.without_padding
  rw [if_neg h0, if_neg hc]
  have hdiv : data.length / count = L := by
    rw [hlen, Nat.mul_div_cancel_left _ (by omega)]
  rw [if_neg (by rw [hdiv, hlen]; simp [Nat.mul_comm])]
  rw [hdiv]

theorem recoder_new_ok (data : List Nat) (F K : Nat)
    (hK : 0 < K) (hFK : K < F) (hlen : F ≤ data.length) :
    Recoder.new data F K = .ok (Recoder.mk
      ((chunksExact F data).map (fun ch => ch.take K)).flatten
      (Encoder.mk ((chunksExact F data).map (fun ch => ch.drop K)).flatten
        (data.length / F) (F - K))
      (data.length / F) F K) := by
  have hF0 : 0 < F := by omega
  have hchlen : (chunksExact F data).length = data.length / F :=
    chunksExact_length F hF0 data.length data le_rfl
  have hq1 : 1 ≤ data.length / F := (Nat.one_le_div_iff hF0).mpr hlen
  have hcoded : (((chunksExact F data).map (fun ch => ch.drop K)).flatten).length =
      data.length / F * (F - K) := by
    rw [flatten_map_length _ (F - K) _ (fun ch hch => by
      rw [List.length_drop, chunksExact_mem_length F hF0 data.length data le_rfl ch hch]),
      hchlen]
  unfold Recoder.new
  rw [if_neg (by omega), if_neg (by omega), if_neg (by omega), if_neg (by omega)]
  have hpos : 0 < data.length / F * (F - K) :=
    Nat.mul_pos (by omega) (by omega)
  rw [without_padding_ok _ _ (F - K) (by rw [hcoded]) (by omega) (by omega)]

/-- C10: when `|data| ≥ F` and `|data|` is not a multiple of `F`,
`Recoder::new` succeeds, uses exactly `⌊|data|/F⌋` received pieces, and the
trailing `|data| mod F` bytes have no effect: the constructed recoder equals
the recoder built from the truncated input, so every subsequently produced
recoded piece coincides. -/
theorem C10_recoder_tolerates_trailing (data : List Nat) (F K : Nat)
    (hK : 0 < K) (hFK : K < F) (hlen : F ≤ data.length)
    (hmod : data.length % F ≠ 0) :
    ∃ rec, Recoder.new data F K = .ok rec ∧
      rec.num_pieces_received = data.length / F ∧
      Recoder.new (data.take (data.length / F * F)) F K = .ok rec ∧
      ∀ rec' r, Recoder.new (data.take (data.length / F * F)) F K = .ok rec' →
        rec.recode r = rec'.recode r := by
  have hF0 : 0 < F := by omega
  have hq1 : 1 ≤ data.length / F := (Nat.one_le_div_iff hF0).mpr hlen
  have hqle : data.length / F * F ≤ data.length := Nat.div_mul_le_self _ _
  have htlen : (data.take (data.length / F * F)).length = data.length / F * F := by
    rw [List.length_take]
    omega
  have hszq : F ≤ data.length / F * F := by
    calc F = 1 * F := (Nat.one_mul F).symm
    _ ≤ data.length / F * F := Nat.mul_le_mul_right F hq1
  have hchunks : chunksExact F (data.take (data.length / F * F)) = chunksExact F data :=
    chunksExact_take_mul F hF0 data.length data le_rfl
  have hqeq : (data.take (data.length / F * F)).length / F = data.length / F := by
    rw [htlen, Nat.mul_div_cancel _ hF0]
  have h1 := recoder_new_ok data F K hK hFK hlen
  have h2 := recoder_new_ok (data.take (data.length / F * F)) F K hK hFK (by omega)
  rw [hchunks, hqeq] at h2
  refine ⟨_, h1, rfl, h2, ?_⟩
  intro rec' r hrec'
  rw [h2] at hrec'
  cases hrec'
  rfl

/-- Witness for C10 with `data = [1,2,3,4,5]`, `F = 2`, `K = 1` (two full
pieces plus one trailing byte). -/
theorem C10_recoder_tolerates_trailing_witness :
    ((0 : Nat) < 1 ∧ 1 < 2 ∧ 2 ≤ ([1, 2, 3, 4, 5] : List Nat).length ∧
      ([1, 2, 3, 4, 5] : List Nat).length % 2 ≠ 0) ∧
    (∃ rec, Recoder.new [1, 2, 3, 4, 5] 2 1 = .ok rec ∧
      rec.num_pieces_received = ([1, 2, 3, 4, 5] : List Nat).length / 2 ∧
      Recoder.new (([1, 2, 3, 4, 5] : List Nat).take
        (([1, 2, 3, 4, 5] : List Nat).length / 2 * 2)) 2 1 = .ok rec ∧
      ∀ rec' r, Recoder.new (([1, 2, 3, 4, 5] : List Nat).take
          (([1, 2, 3, 4, 5] : List Nat).length / 2 * 2)) 2 1 = .ok rec' →
        rec.recode r = rec'.recode r) :=
  ⟨⟨by decide, by decide, by decide, by decide⟩,
    C10_recoder_tolerates_trailing [1, 2, 3, 4, 5] 2 1 (by decide) (by decide)
      (by decide) (by decide)⟩

theorem flatten_uniform_getD (L : Nat) :
    ∀ (cs : List (List Nat)), (∀ ch ∈ cs, ch.length = L) →
    ∀ i j, i < cs.length → j < L →
      cs.flatten.getD (i * L + j) 0 = (cs.getD i []).getD j 0 := by
  intro cs
  induction cs with
  | nil =>
    intro _ i j hi _
    simp at hi
  | cons c rest ih =>
    intro h i j hi hj
    match i with
    | 0 =>
      rw [List.flatten_cons, Nat.zero_mul, Nat.zero_add,
        getD_append_left _ _ _ (by rw [h c (by simp)]; exact hj)]
      rfl
    | i + 1 =>
      have harith : (i + 1) * L + j = c.length + (i * L + j) := by
        rw [h c (by simp)]
        ring
      rw [List.flatten_cons, harith,
        getD_append_right _ _ _ (by omega)]
      have : c.length + (i * L + j) - c.length = i * L + j := by omega
      rw [this, List.getD_cons_succ]
      exact ih (fun ch hch => h ch (by simp [hch])) i j (by simpa using hi) hj

theorem getD_map_lists (f : List Nat → List Nat) (cs : List (List Nat)) (k : Nat)
    (hk : k < cs.length) :
    (cs.map f).getD k [] = f (cs.getD k []) := by
  rw [List.getD_eq_getElem?_getD, List.getElem?_map, List.getElem?_eq_getElem hk,
    List.getD_eq_getElem?_getD, List.getElem?_eq_getElem hk]
  rfl

/-- Entry-wise description of `Recoder::recode`: each byte of the output is
the corresponding linear combination of the input pieces' bytes. -/
theorem recode_entries (data : List Nat) (F K R : Nat) (rec : Recoder) (r : List Nat)
    (hK : 0 < K) (hFK : K < F) (hR : 0 < R) (hdata : data.length = R * F)
    (hrec : Recoder.new data F K = .ok rec) (hr : r.length = R) :
    (rec.recode r).length = F ∧
    (∀ j, j < K → (rec.recode r).getD j 0 =
      gfSum R (fun k => gmul (r.getD k 0) (data.getD (k * F + j) 0))) ∧
    (∀ j, j < F - K → (rec.recode r).getD (K + j) 0 =
      gfSum R (fun k => gmul (r.getD k 0) (data.getD (k * F + K + j) 0))) := by
  have hF0 : 0 < F := by omega
  have hRdiv : data.length / F = R := by rw [hdata, Nat.mul_div_cancel _ hF0]
  have hlenF : F ≤ data.length := by
    rw [hdata]
    calc F = 1 * F := (Nat.one_mul F).symm
    _ ≤ R * F := Nat.mul_le_mul_right F hR
  have hok := recoder_new_ok data F K hK hFK hlenF
  rw [hok, hRdiv] at hrec
  cases hrec
  have hchlen : (chunksExact F data).length = R := by
    rw [chunksExact_length F hF0 data.length data le_rfl, hRdiv]
  have hchmem : ∀ ch ∈ chunksExact F data, ch.length = F :=
    chunksExact_mem_length F hF0 data.length data le_rfl
  have hchget : ∀ k, k < R → (chunksExact F data).getD k [] = (data.drop (k * F)).take F := by
    intro k hk
    exact chunksExact_getD F hF0 data.length data k le_rfl (by omega)
  have hcodedlen :
      (((chunksExact F data).map (fun ch => ch.drop K)).flatten).length = R * (F - K) := by
    rw [flatten_map_length _ (F - K) _ (fun ch hch => by
        rw [List.length_drop, hchmem ch hch]), hchlen]
  have hcv : ∀ k j, k < R → j < K →
      (((chunksExact F data).map (fun ch => ch.take K)).flatten).getD (k * K + j) 0 =
        data.getD (k * F + j) 0 := by
    intro k j hk hj
    rw [flatten_uniform_getD K _ (fun ch hch => by
        obtain ⟨ch0, hch0, rfl⟩ := List.mem_map.mp hch
        rw [List.length_take, hchmem ch0 hch0]
        omega)
      k j (by rw [List.length_map, hchlen]; omega) hj]
    rw [getD_map_lists _ _ k (by omega), hchget k hk, List.take_take,
      getD_take _ _ _ (by omega), getD_drop]
  have hp : ∀ k j, k < R → j < F - K →
      (((chunksExact F data).map (fun ch => ch.drop K)).flatten).getD (k * (F - K) + j) 0 =
        data.getD (k * F + K + j) 0 := by
    intro k j hk hj
    rw [flatten_uniform_getD (F - K) _ (fun ch hch => by
        obtain ⟨ch0, hch0, rfl⟩ := List.mem_map.mp hch
        rw [List.length_drop, hchmem ch0 hch0])
      k j (by rw [List.length_map, hchlen]; omega) hj]
    rw [getD_map_lists _ _ k (by omega), hchget k hk, List.drop_take, getD_take _ _ _ (by omega),
      getD_drop, getD_drop]
    congr 1
    omega
  have hcode := code_with_coding_vector_eq
    (Encoder.mk (((chunksExact F data).map (fun ch => ch.drop K)).flatten) R (F - K)) r
    (by simpa using hcodedlen) (by show 0 < F - K; omega) (by simpa using hr)
  have hform : (Recoder.mk (((chunksExact F data).map (fun ch => ch.take K)).flatten)
        (Encoder.mk (((chunksExact F data).map (fun ch => ch.drop K)).flatten) R (F - K))
        R F K).recode r =
      ((List.range K).map (fun j => gfSum r.length (fun k =>
        gmul (r.getD k 0)
          ((((chunksExact F data).map (fun ch => ch.take K)).flatten).getD (k * K + j) 0)))) ++
      payloadSpec (((chunksExact F data).map (fun ch => ch.drop K)).flatten) R (F - K) r := by
    unfold Recoder.recode
    congr 1
    rw [hcode]
    show (codedRow _ R (F - K) r).drop R = _
    unfold codedRow
    have hd := List.drop_left r
      (payloadSpec (((chunksExact F data).map (fun ch => ch.drop K)).flatten) R (F - K) r)
    rw [hr] at hd
    exact hd
  rw [hform]
  refine ⟨?_, ?_, ?_⟩
  · rw [List.length_append, List.length_map, List.length_range, payloadSpec_length]
    omega
  · intro j hj
    rw [getD_append_left _ _ _ (by rw [List.length_map, List.length_range]; exact hj),
      getD_map_range _ _ _ hj, hr]
    exact gfSum_congr _ _ _ (fun k hk => by rw [hcv k j hk hj])
  · intro j hj
    rw [getD_append_right _ _ _ (by rw [List.length_map, List.length_range]; omega)]
    have hidx : K + j - ((List.range K).map (fun j => gfSum r.length (fun k =>
        gmul (r.getD k 0)
          ((((chunksExact F data).map (fun ch => ch.take K)).flatten).getD (k * K + j) 0)))).length
        = j := by
      rw [List.length_map, List.length_range]
      omega
    rw [hidx, payloadSpec_getD _ _ _ _ j hj]
    exact gfSum_congr _ _ _ (fun k hk => by rw [gmul_comm, hp k j hk hj])

/-- C4: a recoder built from `R` full coded pieces (the `F`-byte chunks of
`data`, coding vector first, payload second) turns a recoding vector `r` of
length `R` into an `F`-byte output whose first `K` bytes are the vector-matrix
product `r * CV` — entry `j` is `sum_{k<R} r[k] * CV[k][j]` — and whose last
`L = F - K` bytes are the combination `sum_{k<R} r[k] * P[k]` of the stored
payloads; the output is therefore itself a full coded piece over the original
`K`-piece basis. -/
theorem C4_recode_composes (data : List Nat) (F K R : Nat) (rec : Recoder) (r : List Nat)
    (hK : 0 < K) (hFK : K < F) (hR : 0 < R) (hdata : data.length = R * F)
    (hrec : Recoder.new data F K = .ok rec) (hr : r.length = R) :
    (rec.recode r).length = F ∧
    (∀ j, j < K → (rec.recode r).getD j 0 =
      gfSum R (fun k => gmul (r.getD k 0) (data.getD (k * F + j) 0))) ∧
    (∀ j, j < F - K → (rec.recode r).getD (K + j) 0 =
      gfSum R (fun k => gmul (r.getD k 0) (data.getD (k * F + K + j) 0))) :=
  recode_entries data F K R rec r hK hFK hR hdata hrec hr

/-- Witness for C4: two full pieces `[1,2,3,4]` and `[5,6,7,8]` with `F = 4`,
`K = 3`, recoding vector `[2,3]`. -/
theorem C4_recode_composes_witness :
    ((0 : Nat) < 3 ∧ 3 < 4 ∧ (0 : Nat) < 2 ∧
      ([1, 2, 3, 4, 5, 6, 7, 8] : List Nat).length = 2 * 4 ∧
      Recoder.new [1, 2, 3, 4, 5, 6, 7, 8] 4 3 =
        .ok (Recoder.mk [1, 2, 3, 5, 6, 7] (Encoder.mk [4, 8] 2 1) 2 4 3) ∧
      ([2, 3] : List Nat).length = 2) ∧
    ((Recoder.mk [1, 2, 3, 5, 6, 7] (Encoder.mk [4, 8] 2 1) 2 4 3).recode [2, 3]).length = 4 ∧
    (∀ j, j < 3 →
      ((Recoder.mk [1, 2, 3, 5, 6, 7] (Encoder.mk [4, 8] 2 1) 2 4 3).recode [2, 3]).getD j 0 =
        gfSum 2 (fun k => gmul (([2, 3] : List Nat).getD k 0)
          (([1, 2, 3, 4, 5, 6, 7, 8] : List Nat).getD (k * 4 + j) 0))) ∧
    (∀ j, j < 4 - 3 →
      ((Recoder.mk [1, 2, 3, 5, 6, 7] (Encoder.mk [4, 8] 2 1) 2 4 3).recode [2, 3]).getD
          (3 + j) 0 =
        gfSum 2 (fun k => gmul (([2, 3] : List Nat).getD k 0)
          (([1, 2, 3, 4, 5, 6, 7, 8] : List Nat).getD (k * 4 + 3 + j) 0))) :=
  ⟨⟨by decide, by decide, by decide, by decide, by decide, by decide⟩,
    C4_recode_composes [1, 2, 3, 4, 5, 6, 7, 8] 4 3 2
      (Recoder.mk [1, 2, 3, 5, 6, 7] (Encoder.mk [4, 8] 2 1) 2 4 3) [2, 3]
      (by decide) (by decide) (by decide) (by decide) (by decide) (by decide)⟩

/-- Counterexample to C5 as stated: the decoder (L = 1, K = 3) accepts the
piece `[0,0,1,5]`; the recoder built exclusively from that single consumed
piece recodes with vector `[2]` into `[0,0,2,10] = 2 * [0,0,1,5]`, a scalar
multiple of the consumed piece; feeding it back, `decode` returns ok — not
`PieceNotUseful` — and the reported rank increases from 1 to 2, because both
rows lead in column 2, beyond the diagonal range `min(rows, cols) = 2` that
`clean_forward`/`clean_backward` pivot on. -/
theorem C5_recode_from_consumed_counterexample :
    Decoder.new 1 3 = .ok (Decoder.mk (DecoderMatrix.mk 3 4 []) 1 3 0 0) ∧
    ((Decoder.mk (DecoderMatrix.mk 3 4 []) 1 3 0 0).decode [0, 0, 1, 5]).2 = none ∧
    Recoder.new [0, 0, 1, 5] 4 3 =
      .ok (Recoder.mk [0, 0, 1] (Encoder.mk [5] 1 1) 1 4 3) ∧
    (Recoder.mk [0, 0, 1] (Encoder.mk [5] 1 1) 1 4 3).recode [2] = [0, 0, 2, 10] ∧
    ((((Decoder.mk (DecoderMatrix.mk 3 4 []) 1 3 0 0).decode [0, 0, 1, 5]).1).decode
        ((Recoder.mk [0, 0, 1] (Encoder.mk [5] 1 1) 1 4 3).recode [2])).2 = none ∧
    (((Decoder.mk (DecoderMatrix.mk 3 4 []) 1 3 0 0).decode [0, 0, 1, 5]).1).matrix.rank = 1 ∧
    ((((Decoder.mk (DecoderMatrix.mk 3 4 []) 1 3 0 0).decode [0, 0, 1, 5]).1).decode
        ((Recoder.mk [0, 0, 1] (Encoder.mk [5] 1 1) 1 4 3).recode [2])).1.matrix.rank = 2 := by
  refine ⟨rfl, by decide, rfl, by decide, by decide, by decide, by decide⟩

/-- C5 amended: every piece produced by a recoder built exclusively from the
pieces `S_0, .., S_{R-1}` (the `F`-byte chunks of `data`) is byte-for-byte the
GF(2^8) linear combination `sum_{k<R} r[k] * S_k` of those pieces, so it
carries no information beyond them; the operational half of the original
claim fails — `decode` may report such a piece useful and the reported rank
may change, as the recorded counterexample shows. -/
theorem C5_recoded_piece_linear_combination (data : List Nat) (F K R : Nat)
    (rec : Recoder) (r : List Nat)
    (hK : 0 < K) (hFK : K < F) (hR : 0 < R) (hdata : data.length = R * F)
    (hrec : Recoder.new data F K = .ok rec) (hr : r.length = R) :
    (rec.recode r).length = F ∧
    ∀ pos, pos < F →
      (rec.recode r).getD pos 0 =
        gfSum R (fun k =>
          gmul (r.getD k 0) (((chunksExact F data).getD k []).getD pos 0)) := by
  obtain ⟨hlen, hfirst, hlast⟩ := recode_entries data F K R rec r hK hFK hR hdata hrec hr
  have hF0 : 0 < F := by omega
  have hchget : ∀ k pos, k < R → pos < F →
      ((chunksExact F data).getD k []).getD pos 0 = data.getD (k * F + pos) 0 := by
    intro k pos hk hpos
    rw [chunksExact_getD F hF0 data.length data k le_rfl
        (by rw [hdata, Nat.mul_div_cancel _ hF0]; omega),
      getD_take _ _ _ hpos, getD_drop]
  refine ⟨hlen, fun pos hpos => ?_⟩
  rcases Nat.lt_or_ge pos K with hpk | hpk
  · rw [hfirst pos hpk]
    exact gfSum_congr _ _ _ (fun k hk => by rw [hchget k pos hk hpos])
  · have hsplit : pos = K + (pos - K) := by omega
    rw [hsplit, hlast (pos - K) (by omega)]
    refine gfSum_congr _ _ _ (fun k hk => ?_)
    rw [hchget k (K + (pos - K)) hk (by omega)]
    have harith : k * F + K + (pos - K) = k * F + (K + (pos - K)) := by omega
    rw [harith]

/-- Witness for the amended C5 at the counterexample configuration:
`data = [0,0,1,5]`, `F = 4`, `K = 3`, `R = 1`, `r = [2]`. -/
theorem C5_recoded_piece_linear_combination_witness :
    ((0 : Nat) < 3 ∧ 3 < 4 ∧ (0 : Nat) < 1 ∧
      ([0, 0, 1, 5] : List Nat).length = 1 * 4 ∧
      Recoder.new [0, 0, 1, 5] 4 3 =
        .ok (Recoder.mk [0, 0, 1] (Encoder.mk [5] 1 1) 1 4 3) ∧
      ([2] : List Nat).length = 1) ∧
    ((Recoder.mk [0, 0, 1] (Encoder.mk [5] 1 1) 1 4 3).recode [2]).length = 4 ∧
    (∀ pos, pos < 4 →
      ((Recoder.mk [0, 0, 1] (Encoder.mk [5] 1 1) 1 4 3).recode [2]).getD pos 0 =
        gfSum 1 (fun k => gmul (([2] : List Nat).getD k 0)
          (((chunksExact 4 [0, 0, 1, 5]).getD k []).getD pos 0))) :=
  ⟨⟨by decide, by decide, by decide, by decide, by decide, by decide⟩,
    C5_recoded_piece_linear_combination [0, 0, 1, 5] 4 3 1
      (Recoder.mk [0, 0, 1] (Encoder.mk [5] 1 1) 1 4 3) [2]
      (by decide) (by decide) (by decide) (by decide) (by decide) (by decide)⟩

theorem mapIdxFrom_length (f : Nat → List Nat → List Nat) :
    ∀ (i : Nat) (m : List (List Nat)), (mapIdxFrom f i m).length = m.length := by
  intro i m
  induction m generalizing i with
  | nil => rfl
  | cons r rs ih =>
    show (mapIdxFrom f i (r :: rs)).length = (r :: rs).length
    rw [mapIdxFrom, List.length_cons, List.length_cons, ih (i + 1)]

theorem swapRows_length (m : List (List Nat)) (a b : Nat) :
    (swapRows m a b).length = m.length := by
  rw [swapRows, List.length_set, List.length_set]

theorem elimBelow_length (m : List (List Nat)) (i : Nat) :
    (elimBelow m i).length = m.length := by
  rw [elimBelow, mapIdxFrom_length]

theorem fstep_length (m : List (List Nat)) (i : Nat) :
    (fstep m i).length = m.length := by
  unfold fstep
  by_cases h : getE m i i = 0
  · rw [if_pos h]
    match findPivot m i with
    | none => rfl
    | some p => rw [elimBelow_length, swapRows_length]
  · rw [if_neg h, elimBelow_length]

theorem cfAux_length (fuel : Nat) :
    ∀ (m : List (List Nat)) (i : Nat), (cfAux m i fuel).length = m.length := by
  induction fuel with
  | zero => intro m i; rfl
  | succ fuel ih =>
    intro m i
    show (cfAux (fstep m i) (i + 1) fuel).length = m.length
    rw [ih (fstep m i) (i + 1), fstep_length]

theorem cleanForward_length (cols : Nat) (m : List (List Nat)) :
    (cleanForward cols m).length = m.length := by
  rw [cleanForward, cfAux_length]

theorem bstep_length (m : List (List Nat)) (i : Nat) :
    (bstep m i).length = m.length := by
  unfold bstep
  by_cases h : getE m i i = 0
  · rw [if_pos h]
  · rw [if_neg h]
    by_cases h1 : getE (mapIdxFrom
        (fun j row =>
          if j < i ∧ getE m j i ≠ 0 then
            fmaFrom i (gdivD (getE m j i) (getE m i i)) row (getRow m i)
          else row) 0 m) i i = 1
    · rw [if_pos h1, mapIdxFrom_length]
    · rw [if_neg h1, List.length_set, mapIdxFrom_length]

theorem cbAux_length : ∀ (n : Nat) (m : List (List Nat)), (cbAux m n).length = m.length := by
  intro n
  induction n with
  | zero => intro m; rfl
  | succ n ih =>
    intro m
    show (cbAux (bstep m n) n).length = m.length
    rw [ih (bstep m n), bstep_length]

theorem cleanBackward_length (cols : Nat) (m : List (List Nat)) :
    (cleanBackward cols m).length = m.length := by
  rw [cleanBackward, cbAux_length]

theorem removeZeroRows_le (K : Nat) (m : List (List Nat)) :
    (removeZeroRows K m).length ≤ m.length := by
  rw [removeZeroRows]
  exact List.length_filter_le _ _

theorem rref_rank_le (mat : DecoderMatrix) : mat.rref.rank ≤ mat.rank := by
  show (removeZeroRows mat.num_pieces_coded_together
    (cleanBackward mat.cols (cleanForward mat.cols mat.elements))).length ≤ mat.elements.length
  calc (removeZeroRows mat.num_pieces_coded_together
      (cleanBackward mat.cols (cleanForward mat.cols mat.elements))).length
      ≤ (cleanBackward mat.cols (cleanForward mat.cols mat.elements)).length :=
        removeZeroRows_le _ _
    _ = mat.elements.length := by rw [cleanBackward_length, cleanForward_length]

theorem decode_invariant_step (d : Decoder) (p : List Nat)
    (h : d.useful_piece_count = d.matrix.rank ∧
      d.matrix.rank ≤ d.received_piece_count ∧
      d.matrix.rank ≤ d.required_piece_count) :
    ((d.decode p).1.useful_piece_count = (d.decode p).1.matrix.rank ∧
      (d.decode p).1.matrix.rank ≤ (d.decode p).1.received_piece_count ∧
      (d.decode p).1.matrix.rank ≤ (d.decode p).1.required_piece_count) ∧
    (d.decode p).1.required_piece_count = d.required_piece_count := by
  obtain ⟨h1, h2, h3⟩ := h
  unfold Decoder.decode
  by_cases hd : d.is_already_decoded
  · rw [if_pos hd]
    exact ⟨⟨h1, h2, h3⟩, rfl⟩
  · rw [if_neg hd]
    have hdne : d.matrix.rank ≠ d.required_piece_count := by
      intro hcontra
      exact hd (by simp [Decoder.is_already_decoded, hcontra])
    by_cases hlen : p.length ≠ d.get_full_coded_piece_byte_len
    · rw [if_pos hlen]
      exact ⟨⟨h1, h2, h3⟩, rfl⟩
    · rw [if_neg hlen]
      cases hadd : d.matrix.add_row p with
      | error e =>
        exact ⟨⟨h1, h2, h3⟩, rfl⟩
      | ok m1 =>
        have hm1 : m1.rank = d.matrix.rank + 1 := by
          unfold DecoderMatrix.add_row at hadd
          by_cases hc : p.length ≠ d.matrix.cols
          · rw [if_pos hc] at hadd
            exact Except.noConfusion hadd
          · rw [if_neg hc] at hadd
            cases hadd
            show (d.matrix.elements ++ [p]).length = d.matrix.elements.length + 1
            rw [List.length_append, List.length_cons, List.length_nil]
        have hle : m1.rref.rank ≤ d.matrix.rank + 1 := by
          rw [← hm1]
          exact rref_rank_le m1
        by_cases heq : d.matrix.rank = m1.rref.rank
        · simp only [if_pos heq]
          exact ⟨⟨by rw [h1, heq], by omega, by omega⟩, trivial⟩
        · simp only [if_neg heq]
          exact ⟨⟨trivial, by omega, by omega⟩, trivial⟩

theorem feed_invariant (ps : List (List Nat)) :
    ∀ (d : Decoder),
      (d.useful_piece_count = d.matrix.rank ∧
        d.matrix.rank ≤ d.received_piece_count ∧
        d.matrix.rank ≤ d.required_piece_count) →
      ((feed d ps).useful_piece_count = (feed d ps).matrix.rank ∧
        (feed d ps).matrix.rank ≤ (feed d ps).received_piece_count ∧
        (feed d ps).matrix.rank ≤ (feed d ps).required_piece_count) ∧
      (feed d ps).required_piece_count = d.required_piece_count := by
  induction ps with
  | nil => intro d h; exact ⟨h, rfl⟩
  | cons p ps ih =>
    intro d h
    obtain ⟨hstep, hreq⟩ := decode_invariant_step d p h
    obtain ⟨hrest, hreq'⟩ := ih (d.decode p).1 hstep
    have hfe : feed d (p :: ps) = feed (d.decode p).1 ps := rfl
    rw [hfe]
    exact ⟨hrest, by rw [hreq', hreq]⟩

/-- Counterexample to C2 as stated: with `L = K = 1`, feeding the all-zero
piece `[0,0]` twice leaves the rank at 0 but increments the received counter
both times, so `received_piece_count = 2 > 1 = K`. -/
theorem C2_received_count_counterexample :
    Decoder.new 1 1 = .ok (Decoder.mk (DecoderMatrix.mk 1 2 []) 1 1 0 0) ∧
    (feed (Decoder.mk (DecoderMatrix.mk 1 2 []) 1 1 0 0) [[0, 0], [0, 0]]).received_piece_count
      = 2 ∧
    ¬((feed (Decoder.mk (DecoderMatrix.mk 1 2 []) 1 1 0 0)
        [[0, 0], [0, 0]]).received_piece_count ≤ 1) :=
  ⟨rfl, by decide, by decide⟩

/-- C2 amended: after any sequence of `decode` calls on `Decoder::new(L, K)`,
the decoder satisfies `useful_piece_count == matrix.rank()`,
`matrix.rank() <= received_piece_count`, and `matrix.rank() <= K`; the
original bound `received_piece_count <= K` fails because not-useful pieces
still increment the received counter (see the recorded counterexample). -/
theorem C2_usefulness_accounting (L K : Nat) (d0 : Decoder)
    (hnew : Decoder.new L K = .ok d0) (ps : List (List Nat)) :
    (feed d0 ps).useful_piece_count = (feed d0 ps).matrix.rank ∧
    (feed d0 ps).matrix.rank ≤ (feed d0 ps).received_piece_count ∧
    (feed d0 ps).matrix.rank ≤ K := by
  have hd0 : d0 = Decoder.mk (DecoderMatrix.new K L) L K 0 0 ∧ L ≠ 0 ∧ K ≠ 0 := by
    unfold Decoder.new at hnew
    by_cases hL : L = 0
    · rw [if_pos hL] at hnew
      exact Except.noConfusion hnew
    · rw [if_neg hL] at hnew
      by_cases hK : K = 0
      · rw [if_pos hK] at hnew
        exact Except.noConfusion hnew
      · rw [if_neg hK] at hnew
        cases hnew
        exact ⟨rfl, hL, hK⟩
  obtain ⟨hd0eq, hL, hK⟩ := hd0
  subst hd0eq
  obtain ⟨⟨ha, hb, hc⟩, hreq⟩ := feed_invariant ps
    (Decoder.mk (DecoderMatrix.new K L) L K 0 0)
    (by refine ⟨rfl, Nat.le_refl _, ?_⟩
        show (0 : Nat) ≤ K
        omega)
  refine ⟨ha, hb, ?_⟩
  rw [hreq] at hc
  exact hc

/-- Witness for the amended C2: `L = K = 1` with the two-zero-piece feed of
the counterexample plus one genuine piece. -/
theorem C2_usefulness_accounting_witness :
    Decoder.new 1 1 = .ok (Decoder.mk (DecoderMatrix.mk 1 2 []) 1 1 0 0) ∧
    ((feed (Decoder.mk (DecoderMatrix.mk 1 2 []) 1 1 0 0)
        [[0, 0], [1, 9], [2, 7]]).useful_piece_count =
      (feed (Decoder.mk (DecoderMatrix.mk 1 2 []) 1 1 0 0)
        [[0, 0], [1, 9], [2, 7]]).matrix.rank ∧
    (feed (Decoder.mk (DecoderMatrix.mk 1 2 []) 1 1 0 0)
        [[0, 0], [1, 9], [2, 7]]).matrix.rank ≤
      (feed (Decoder.mk (DecoderMatrix.mk 1 2 []) 1 1 0 0)
        [[0, 0], [1, 9], [2, 7]]).received_piece_count ∧
    (feed (Decoder.mk (DecoderMatrix.mk 1 2 []) 1 1 0 0)
        [[0, 0], [1, 9], [2, 7]]).matrix.rank ≤ 1) :=
  ⟨rfl, C2_usefulness_accounting 1 1 (Decoder.mk (DecoderMatrix.mk 1 2 []) 1 1 0 0) rfl
    [[0, 0], [1, 9], [2, 7]]⟩

theorem revFind_none (pl : List Nat)
    (h : pl.reverse.findIdx? (fun byte => byte == 129) = none) :
    ∀ i, i < pl.length → pl.getD i 0 ≠ 129 := by
  intro i hi hcontra
  have hm : pl.getD i 0 ∈ pl.reverse := by
    rw [List.mem_reverse, List.getD_eq_getElem pl 0 hi]
    exact List.getElem_mem hi
  have hfalse := (List.findIdx?_eq_none_iff.mp h) _ hm
  rw [hcontra] at hfalse
  simp at hfalse

theorem revFind_some (pl : List Nat) (k : Nat)
    (h : pl.reverse.findIdx? (fun byte => byte == 129) = some k) :
    k < pl.length ∧ pl.getD (pl.length - 1 - k) 0 = 129 ∧
      ∀ i, i < pl.length → pl.length - 1 - k < i → pl.getD i 0 ≠ 129 := by
  obtain ⟨hk, hp, hmin⟩ := List.findIdx?_eq_some_iff_getElem.mp h
  rw [List.length_reverse] at hk
  refine ⟨hk, ?_, ?_⟩
  · rw [List.getElem_reverse] at hp
    rw [List.getD_eq_getElem pl 0 (by omega)]
    exact beq_iff_eq.mp hp
  · intro i hi hgt hcontra
    have hj : pl.length - 1 - i < k := by omega
    have hmin' := hmin (pl.length - 1 - i) hj
    rw [List.getElem_reverse] at hmin'
    have hidx : pl.length - 1 - (pl.length - 1 - i) = i := by omega
    simp only [hidx] at hmin'
    rw [List.getD_eq_getElem pl 0 hi] at hcontra
    rw [hcontra] at hmin'
    simp at hmin'

theorem any_drop_getD (pl : List Nat) (m : Nat) :
    (pl.drop (m + 1)).any (fun byte => byte != 0) = true ↔
      ∃ i, i < pl.length ∧ m < i ∧ pl.getD i 0 ≠ 0 := by
  rw [List.any_eq_true]
  constructor
  · rintro ⟨x, hx, hpx⟩
    obtain ⟨j, hj, hxe⟩ := List.mem_iff_getElem.mp hx
    have hjlen : m + 1 + j < pl.length := by
      have := hj
      rw [List.length_drop] at this
      omega
    refine ⟨m + 1 + j, hjlen, by omega, ?_⟩
    rw [List.getD_eq_getElem pl 0 hjlen]
    rw [← List.getElem_drop pl, hxe]
    simpa using hpx
  · rintro ⟨i, hi, hmi, hne⟩
    have hj : i - (m + 1) < (pl.drop (m + 1)).length := by
      rw [List.length_drop]; omega
    refine ⟨pl.getD i 0, ?_, by simpa using hne⟩
    rw [List.mem_iff_getElem]
    refine ⟨i - (m + 1), hj, ?_⟩
    rw [List.getElem_drop]
    have hidx : m + 1 + (i - (m + 1)) = i := by omega
    simp only [hidx]
    rw [List.getD_eq_getElem pl 0 hi]

/-- C8: `get_decoded_data` fails with `NotAllPiecesReceivedYet` unless
`rank = K`; otherwise, writing `pl` for the concatenation of the `L`-byte
payload halves of the rows, it fails with `InvalidDecodedDataFormat` when
`pl` holds no byte `0x81`, and, when `j` is the index of the last `0x81`
in `pl`, it fails with `InvalidDecodedDataFormat` if `j = 0` or some byte
after index `j` is nonzero, and otherwise returns `pl` truncated to its
first `j` bytes. -/
theorem C8_decoded_data_extraction (d : Decoder) (pl : List Nat)
    (hpl : pl = ((chunksExact (d.required_piece_count + d.piece_byte_len)
        d.matrix.extract_data).map
      (fun full_decoded_piece => full_decoded_piece.drop d.required_piece_count)).flatten)
    (hne : pl ≠ []) :
    (d.matrix.rank ≠ d.required_piece_count →
      d.get_decoded_data = .error .NotAllPiecesReceivedYet) ∧
    (d.matrix.rank = d.required_piece_count →
      ((∀ i, i < pl.length → pl.getD i 0 ≠ 129) →
        d.get_decoded_data = .error .InvalidDecodedDataFormat) ∧
      (∀ j, j < pl.length → pl.getD j 0 = 129 →
        (∀ i, i < pl.length → j < i → pl.getD i 0 ≠ 129) →
        ((j = 0 → d.get_decoded_data = .error .InvalidDecodedDataFormat) ∧
         ((∃ i, i < pl.length ∧ j < i ∧ pl.getD i 0 ≠ 0) →
           d.get_decoded_data = .error .InvalidDecodedDataFormat) ∧
         (j ≠ 0 → (∀ i, i < pl.length → j < i → pl.getD i 0 = 0) →
           d.get_decoded_data = .ok (pl.take j))))) := by
  have hgd : d.get_decoded_data =
      if !d.is_already_decoded then .error .NotAllPiecesReceivedYet
      else decodedBoundary pl := by
    unfold Decoder.get_decoded_data
    rw [hpl]
  constructor
  · intro hrk
    have hb : d.is_already_decoded = false := by
      simp [Decoder.is_already_decoded]
      exact hrk
    rw [hgd, hb]
    rfl
  · intro hrk
    have hb : d.is_already_decoded = true := by
      simp [Decoder.is_already_decoded, hrk]
    have hgd2 : d.get_decoded_data = decodedBoundary pl := by
      rw [hgd, hb]
      rfl
    cases hfind : pl.reverse.findIdx? (fun byte => byte == 129) with
    | none =>
      have hnom := revFind_none pl hfind
      have hdb : decodedBoundary pl = .error .InvalidDecodedDataFormat := by
        unfold decodedBoundary
        rw [hfind]
        simp only []
        rw [if_pos (Nat.sub_self (pl.length - 1))]
      constructor
      · intro _
        rw [hgd2, hdb]
      · intro j hj hj129 _
        exact absurd hj129 (hnom j hj)
    | some k =>
      obtain ⟨hk, hm129, hmlast⟩ := revFind_some pl k hfind
      constructor
      · intro hno
        exact absurd hm129 (hno (pl.length - 1 - k) (by omega))
      · intro j hj hj129 hjlast
        have hjm : j = pl.length - 1 - k := by
          rcases Nat.lt_trichotomy j (pl.length - 1 - k) with h1 | h1 | h1
          · exact absurd hm129 (hjlast (pl.length - 1 - k) (by omega) h1)
          · exact h1
          · exact absurd hj129 (hmlast j hj h1)
        refine ⟨?_, ?_, ?_⟩
        · intro hj0
          have hdb : decodedBoundary pl = .error .InvalidDecodedDataFormat := by
            unfold decodedBoundary
            rw [hfind]
            simp only []
            rw [if_pos (by omega)]
          rw [hgd2, hdb]
        · intro hex
          by_cases hm0 : pl.length - 1 - k = 0
          · have hdb : decodedBoundary pl = .error .InvalidDecodedDataFormat := by
              unfold decodedBoundary
              rw [hfind]
              simp only []
              rw [if_pos (by omega)]
            rw [hgd2, hdb]
          · have hany : (pl.drop ((pl.length - 1 - k) + 1)).any
                (fun byte => byte != 0) = true := by
              refine (any_drop_getD pl (pl.length - 1 - k)).mpr ?_
              obtain ⟨i, hi, hji, hine⟩ := hex
              exact ⟨i, hi, by omega, hine⟩
            have hdb : decodedBoundary pl = .error .InvalidDecodedDataFormat := by
              unfold decodedBoundary
              rw [hfind]
              simp only []
              rw [if_neg (by omega), if_pos hany]
            rw [hgd2, hdb]
        · intro hj0 hzero
          have hnoany : ¬((pl.drop ((pl.length - 1 - k) + 1)).any
              (fun byte => byte != 0) = true) := by
            intro hany
            obtain ⟨i, hi, hji, hine⟩ := (any_drop_getD pl (pl.length - 1 - k)).mp hany
            exact hine (hzero i hi (by omega))
          have hdb : decodedBoundary pl = .ok (pl.take (pl.length - 1 - k)) := by
            unfold decodedBoundary
            rw [hfind]
            simp only []
            rw [if_neg (by omega), if_neg hnoany]
          rw [hgd2, hdb, hjm]

/-- Witness for C8: a completed single-piece decoder with payload
`[5, 129, 0]` decodes to `[5]`. -/
theorem C8_decoded_data_extraction_witness :
    ([5, 129, 0] : List Nat) ≠ [] ∧
    (Decoder.mk (DecoderMatrix.mk 1 4 [[1, 5, 129, 0]]) 3 1 1 1).get_decoded_data
      = .ok [5] := by
  refine ⟨by decide, ?_⟩
  have h := (C8_decoded_data_extraction
    (Decoder.mk (DecoderMatrix.mk 1 4 [[1, 5, 129, 0]]) 3 1 1 1)
    [5, 129, 0] rfl (by decide)).2
  have h2 := ((h rfl).2 1 (by decide) (by decide)
    (by decide)).2.2 (by decide) (by decide)
  exact h2

theorem getD_set_ne (l : List Nat) (a x t : Nat) (h : a ≠ t) :
    (l.set a x).getD t 0 = l.getD t 0 := by
  rw [List.getD_eq_getElem?_getD, List.getElem?_set_ne h, ← List.getD_eq_getElem?_getD]

theorem getD_set_self (l : List Nat) (a x : Nat) (h : a < l.length) :
    (l.set a x).getD a 0 = x := by
  rw [List.getD_eq_getElem?_getD, List.getElem?_set_self h]
  rfl

theorem getRow_oob (m : List (List Nat)) (r : Nat) (hr : m.length ≤ r) :
    getRow m r = [] := by
  unfold getRow
  rw [List.getD_eq_getElem?_getD, List.getElem?_eq_none (by omega)]
  rfl

theorem getRow_set_self (m : List (List Nat)) (a : Nat) (row : List Nat)
    (ha : a < m.length) : getRow (m.set a row) a = row := by
  unfold getRow
  rw [List.getD_eq_getElem?_getD, List.getElem?_set_self ha]
  rfl

theorem getRow_set_ne (m : List (List Nat)) (a b : Nat) (row : List Nat)
    (h : a ≠ b) : getRow (m.set a row) b = getRow m b := by
  unfold getRow
  rw [List.getD_eq_getElem?_getD, List.getElem?_set_ne h, ← List.getD_eq_getElem?_getD]

theorem getRow_swapRows (m : List (List Nat)) (a b r : Nat)
    (ha : a < m.length) (hb : b < m.length) :
    getRow (swapRows m a b) r =
      if r = b then getRow m a else if r = a then getRow m b else getRow m r := by
  unfold swapRows
  by_cases hrb : r = b
  · subst hrb
    rw [if_pos rfl, getRow_set_self _ _ _ (by simpa using hb)]
  · rw [if_neg hrb, getRow_set_ne _ _ _ _ (fun h => hrb h.symm)]
    by_cases hra : r = a
    · subst hra
      rw [if_pos rfl, getRow_set_self _ _ _ ha]
    · rw [if_neg hra, getRow_set_ne _ _ _ _ (fun h => hra h.symm)]

theorem getRow_mapIdxFrom (f : Nat → List Nat → List Nat) :
    ∀ (m : List (List Nat)) (i0 r : Nat), r < m.length →
      getRow (mapIdxFrom f i0 m) r = f (i0 + r) (getRow m r) := by
  intro m
  induction m with
  | nil =>
    intro i0 r hr
    simp at hr
  | cons x xs ih =>
    intro i0 r hr
    cases r with
    | zero =>
      show getRow (f i0 x :: mapIdxFrom f (i0 + 1) xs) 0 = f (i0 + 0) (getRow (x :: xs) 0)
      rw [Nat.add_zero]
      rfl
    | succ r =>
      show getRow (f i0 x :: mapIdxFrom f (i0 + 1) xs) (r + 1)
        = f (i0 + (r + 1)) (getRow (x :: xs) (r + 1))
      unfold getRow
      rw [List.getD_cons_succ, List.getD_cons_succ]
      have hih := ih (i0 + 1) r (by simpa using hr)
      unfold getRow at hih
      rw [hih]
      congr 1
      omega

theorem fmaFrom_length (start q : Nat) (dst src : List Nat)
    (h : src.length = dst.length) :
    (fmaFrom start q dst src).length = dst.length := by
  unfold fmaFrom
  rw [List.length_append, List.length_take, List.length_zipWith, List.length_drop,
    List.length_drop, h]
  omega

theorem fmaFrom_getD (start q : Nat) (dst src : List Nat)
    (h : src.length = dst.length) (t : Nat) :
    (fmaFrom start q dst src).getD t 0 =
      if t < start then dst.getD t 0
      else if t < dst.length then dst.getD t 0 ^^^ gmul (src.getD t 0) q
      else 0 := by
  unfold fmaFrom
  by_cases ht : t < start
  · rw [if_pos ht]
    by_cases htl : t < dst.length
    · rw [getD_append_left _ _ _ (by rw [List.length_take]; omega),
        getD_take _ _ _ ht]
    · rw [getD_append_right _ _ _ (by rw [List.length_take]; omega),
        getD_oob _ _ (by
          rw [List.length_zipWith, List.length_drop, List.length_drop, h]
          omega),
        getD_oob _ _ (by omega)]
  · by_cases htl : t < dst.length
    · rw [if_neg (by omega), if_pos htl,
        getD_append_right _ _ _ (by rw [List.length_take]; omega),
        List.length_take]
      have hms : min start dst.length = start := by omega
      rw [hms,
        getD_zipWith _ _ _ _ (by rw [List.length_drop]; omega)
          (by rw [List.length_drop, h]; omega),
        getD_drop, getD_drop]
      have harith : start + (t - start) = t := by omega
      rw [harith]
    · rw [if_neg (by omega), if_neg (by omega)]
      exact getD_oob _ _ (by
        rw [List.length_append, List.length_take, List.length_zipWith,
          List.length_drop, List.length_drop, h]
        omega)

theorem normalizeRow_length (i inv : Nat) (row : List Nat) (hi : i < row.length) :
    (normalizeRow i inv row).length = row.length := by
  unfold normalizeRow
  rw [List.length_append, List.length_take, List.length_map, List.length_drop,
    List.length_set]
  omega

theorem normalizeRow_getD (i inv : Nat) (row : List Nat) (hi : i < row.length) (t : Nat) :
    (normalizeRow i inv row).getD t 0 =
      if t < i then row.getD t 0
      else if t = i then 1
      else if t < row.length then gmul (row.getD t 0) inv
      else 0 := by
  unfold normalizeRow
  by_cases h1 : t < i
  · rw [if_pos h1,
      getD_append_left _ _ _ (by rw [List.length_take, List.length_set]; omega),
      getD_take _ _ _ (by omega), getD_set_ne _ _ _ _ (by omega)]
  · by_cases h2 : t = i
    · subst h2
      rw [if_neg (by omega), if_pos rfl,
        getD_append_left _ _ _ (by rw [List.length_take, List.length_set]; omega),
        getD_take _ _ _ (by omega), getD_set_self _ _ _ hi]
    · by_cases h3 : t < row.length
      · rw [if_neg h1, if_neg h2, if_pos h3,
          getD_append_right _ _ _ (by rw [List.length_take, List.length_set]; omega),
          List.length_take, List.length_set]
        have hms : min (i + 1) row.length = i + 1 := by omega
        rw [hms, getD_map _ _ _ (by rw [List.length_drop]; omega), getD_drop]
        have harith : i + 1 + (t - (i + 1)) = t := by omega
        rw [harith]
      · rw [if_neg h1, if_neg h2, if_neg h3]
        exact getD_oob _ _ (by
          rw [List.length_append, List.length_take, List.length_map,
            List.length_drop, List.length_set]
          omega)

theorem gdivD_lt (a b : Nat) (ha : a < 256) (hb : b < 256) : gdivD a b < 256 := by
  unfold gdivD
  cases hg : ginv b with
  | none =>
    show (0 : Nat) < 256
    omega
  | some bi =>
    have hbi : bi = ginvD b := by rw [ginvD, hg]; rfl
    have hb0 : b ≠ 0 := by
      intro h0
      rw [h0] at hg
      exact Option.noConfusion (hg ▸ rfl : (none : Option Nat) = some bi)
    show gmul a bi < 256
    rw [hbi]
    exact gmul_lt _ _ ha (ginvD_lt b hb hb0)

theorem funCD_ext (Dg : Nat → Nat) (K L : Nat) (u v : Nat → Nat)
    (h : ∀ t, u t = v t) (hu : funCD Dg K L u) : funCD Dg K L v := by
  have he : v = u := funext (fun t => (h t).symm)
  rw [he]
  exact hu

theorem funCD_fma (Dg : Nat → Nat) (K L : Nat) (u v : Nat → Nat) (q : Nat)
    (hD : ∀ t, Dg t < 256) (hu : ∀ t, u t < 256) (hv : ∀ t, v t < 256) (hq : q < 256)
    (hcu : funCD Dg K L u) (hcv : funCD Dg K L v) :
    funCD Dg K L (fun t => u t ^^^ gmul (v t) q) := by
  intro j hj
  show u (K + j) ^^^ gmul (v (K + j)) q = _
  rw [hcu j hj, hcv j hj,
    gfSum_gmul K q _ hq (fun i _ => gmul_lt _ _ (hD _) (hv _)),
    ← gfSum_xor]
  apply gfSum_congr
  intro i hi
  show gmul (Dg (i * L + j)) (u i) ^^^ gmul (gmul (Dg (i * L + j)) (v i)) q
    = gmul (Dg (i * L + j)) (u i ^^^ gmul (v i) q)
  rw [gmul_assoc _ _ _ (hD _) (hv _) hq,
    ← gmul_xor_right _ _ _ (hD _) (hu _) (gmul_lt _ _ (hv _) hq)]

theorem funCD_scale (Dg : Nat → Nat) (K L : Nat) (u : Nat → Nat) (q : Nat)
    (hD : ∀ t, Dg t < 256) (hu : ∀ t, u t < 256) (hq : q < 256)
    (hcu : funCD Dg K L u) :
    funCD Dg K L (fun t => gmul (u t) q) := by
  intro j hj
  show gmul (u (K + j)) q = _
  rw [hcu j hj,
    gfSum_gmul K q _ hq (fun i _ => gmul_lt _ _ (hD _) (hu _))]
  apply gfSum_congr
  intro i hi
  show gmul (gmul (Dg (i * L + j)) (u i)) q = gmul (Dg (i * L + j)) (gmul (u i) q)
  rw [gmul_assoc _ _ _ (hD _) (hu _) hq]

theorem findPivot_none (m : List (List Nat)) (i : Nat)
    (h : findPivot m i = none) :
    ∀ j, i < j → j < m.length → getE m j i = 0 := by
  intro j hij hjl
  have hmem : j ∈ List.range' (i + 1) (m.length - (i + 1)) := by
    rw [List.mem_range'_1]
    omega
  have hall := List.find?_eq_none.mp h j hmem
  simpa using hall

theorem findPivot_some (m : List (List Nat)) (i p : Nat)
    (h : findPivot m i = some p) :
    i < p ∧ p < m.length ∧ getE m p i ≠ 0 := by
  have hp := List.find?_some h
  have hmem := List.mem_of_find?_eq_some h
  rw [List.mem_range'_1] at hmem
  refine ⟨by omega, by omega, by simpa using hp⟩

theorem getRow_elimBelow (m : List (List Nat)) (i r : Nat) (hr : r < m.length) :
    getRow (elimBelow m i) r =
      if i < r ∧ getE m r i ≠ 0 then
        fmaFrom i (gdivD (getE m r i) (getE m i i)) (getRow m r) (getRow m i)
      else getRow m r := by
  unfold elimBelow
  rw [getRow_mapIdxFrom _ m 0 r hr]
  rw [Nat.zero_add]

theorem elimBelow_inv (D : List Nat) (K L : Nat) (m : List (List Nat)) (i : Nat)
    (hD : ∀ t, D.getD t 0 < 256)
    (hw : rowsWF (K + L) m)
    (hcd : matCD D K L m)
    (hltz : LTz m i)
    (hiKL : i < K + L) :
    rowsWF (K + L) (elimBelow m i) ∧ matCD D K L (elimBelow m i) ∧
      LTz (elimBelow m i) i ∧
      (∀ r, r ≤ i → r < m.length → getRow (elimBelow m i) r = getRow m r) ∧
      (getE m i i ≠ 0 → ∀ r, i < r → r < m.length → getE (elimBelow m i) r i = 0) := by
  obtain ⟨hwl, hwe⟩ := hw
  have hkeep : ∀ r, r ≤ i → r < m.length → getRow (elimBelow m i) r = getRow m r := by
    intro r hri hr
    rw [getRow_elimBelow m i r hr, if_neg (by rintro ⟨h1, _⟩; omega)]
  have hrow : ∀ r, r < m.length →
      getRow (elimBelow m i) r = getRow m r ∨
      (i < r ∧ i < m.length ∧ getE m r i ≠ 0 ∧
        getRow (elimBelow m i) r =
          fmaFrom i (gdivD (getE m r i) (getE m i i)) (getRow m r) (getRow m i)) := by
    intro r hr
    rw [getRow_elimBelow m i r hr]
    by_cases hg : i < r ∧ getE m r i ≠ 0
    · exact Or.inr ⟨hg.1, by omega, hg.2, by rw [if_pos hg]⟩
    · exact Or.inl (by rw [if_neg hg])
  have hlen : ∀ r, r < m.length → (getRow (elimBelow m i) r).length = K + L := by
    intro r hr
    rcases hrow r hr with h | ⟨h1, h2, h3, h4⟩
    · rw [h]
      exact hwl r hr
    · rw [h4, fmaFrom_length _ _ _ _ (by rw [hwl i h2, hwl r hr])]
      exact hwl r hr
  have hfull : ∀ r, r < m.length → i < r → getE m r i ≠ 0 → ∀ t,
      getE (elimBelow m i) r t =
        getE m r t ^^^ gmul (getE m i t) (gdivD (getE m r i) (getE m i i)) := by
    intro r hr hir hne t
    have him : i < m.length := by omega
    show (getRow (elimBelow m i) r).getD t 0 = _
    rw [getRow_elimBelow m i r hr, if_pos ⟨hir, hne⟩,
      fmaFrom_getD _ _ _ _ (by rw [hwl i him, hwl r hr]) t]
    by_cases ht : t < i
    · rw [if_pos ht,
        show getE m i t = 0 from hltz t i ht ht him, gmul_zero_left, Nat.xor_zero]
      rfl
    · by_cases ht2 : t < K + L
      · rw [if_neg ht, if_pos (by rw [hwl r hr]; exact ht2)]
        rfl
      · rw [if_neg ht, if_neg (by rw [hwl r hr]; omega),
          show getE m r t = 0 from getD_oob _ _ (by rw [hwl r hr]; omega),
          show getE m i t = 0 from getD_oob _ _ (by rw [hwl i him]; omega),
          gmul_zero_left, Nat.xor_zero]
  have hent : ∀ r c, getE (elimBelow m i) r c < 256 := by
    intro r c
    by_cases hr : r < m.length
    · rcases hrow r hr with h | ⟨h1, h2, h3, h4⟩
      · show (getRow (elimBelow m i) r).getD c 0 < 256
        rw [h]
        exact hwe r c
      · rw [hfull r hr h1 h3 c]
        exact xor_lt_256 _ _ (hwe r c)
          (gmul_lt _ _ (hwe i c) (gdivD_lt _ _ (hwe r i) (hwe i i)))
    · show (getRow (elimBelow m i) r).getD c 0 < 256
      rw [getRow_oob _ _ (by rw [elimBelow_length]; omega),
        getD_oob _ _ (Nat.zero_le c)]
      omega
  have hcd' : matCD D K L (elimBelow m i) := by
    intro r hr j hj
    rw [elimBelow_length] at hr
    rcases hrow r hr with h | ⟨h1, h2, h3, h4⟩
    · have hge : ∀ c, getE (elimBelow m i) r c = getE m r c := by
        intro c
        show (getRow (elimBelow m i) r).getD c 0 = _
        rw [h]
        rfl
      rw [hge (K + j), hcd r hr j hj]
      exact gfSum_congr _ _ _ (fun i' _ => by rw [hge i'])
    · have hu : funCD (fun t => D.getD t 0) K L (fun t => getE m r t) :=
        fun j' hj' => hcd r hr j' hj'
      have hv : funCD (fun t => D.getD t 0) K L (fun t => getE m i t) :=
        fun j' hj' => hcd i h2 j' hj'
      have hnew := funCD_fma (fun t => D.getD t 0) K L _ _
        (gdivD (getE m r i) (getE m i i)) (fun t => hD t) (fun t => hwe r t)
        (fun t => hwe i t) (gdivD_lt _ _ (hwe r i) (hwe i i)) hu hv
      exact funCD_ext (fun t => D.getD t 0) K L _ _
        (fun t => (hfull r hr h1 h3 t).symm) hnew j hj
  have hltz' : LTz (elimBelow m i) i := by
    intro c r hc hcr hr
    rw [elimBelow_length] at hr
    rcases hrow r hr with h | ⟨h1, h2, h3, h4⟩
    · show (getRow (elimBelow m i) r).getD c 0 = 0
      rw [h]
      exact hltz c r hc hcr hr
    · rw [hfull r hr h1 h3 c,
        show getE m r c = 0 from hltz c r hc hcr hr,
        show getE m i c = 0 from hltz c i hc (by omega) h2,
        gmul_zero_left, Nat.xor_zero]
  have hclr : getE m i i ≠ 0 → ∀ r, i < r → r < m.length →
      getE (elimBelow m i) r i = 0 := by
    intro hpiv r hir hr
    by_cases hg : getE m r i = 0
    · rcases hrow r hr with h | ⟨_, _, h3, _⟩
      · show (getRow (elimBelow m i) r).getD i 0 = 0
        rw [h]
        exact hg
      · exact absurd hg h3
    · rw [hfull r hr hir hg i,
        gmul_gdivD (getE m r i) (getE m i i) (hwe r i) (hwe i i) hpiv,
        Nat.xor_self]
  exact ⟨⟨fun r hr => hlen r (by rwa [elimBelow_length] at hr), hent⟩,
    hcd', hltz', hkeep, hclr⟩

theorem swapRows_inv (D : List Nat) (K L : Nat) (m : List (List Nat)) (i p : Nat)
    (hw : rowsWF (K + L) m)
    (hcd : matCD D K L m)
    (hltz : LTz m i)
    (hip : i < p) (hpl : p < m.length) :
    rowsWF (K + L) (swapRows m i p) ∧ matCD D K L (swapRows m i p) ∧
      LTz (swapRows m i p) i ∧
      getRow (swapRows m i p) i = getRow m p := by
  obtain ⟨hwl, hwe⟩ := hw
  have him : i < m.length := by omega
  have hrow : ∀ r, getRow (swapRows m i p) r =
      if r = p then getRow m i else if r = i then getRow m p else getRow m r :=
    fun r => getRow_swapRows m i p r him hpl
  have hsig : ∀ r, r < m.length → ∃ r', r' < m.length ∧
      getRow (swapRows m i p) r = getRow m r' := by
    intro r hr
    rw [hrow r]
    by_cases h1 : r = p
    · exact ⟨i, him, by rw [if_pos h1]⟩
    · by_cases h2 : r = i
      · exact ⟨p, hpl, by rw [if_neg h1, if_pos h2]⟩
      · exact ⟨r, hr, by rw [if_neg h1, if_neg h2]⟩
  refine ⟨⟨?_, ?_⟩, ?_, ?_, ?_⟩
  · intro r hr
    rw [swapRows_length] at hr
    obtain ⟨r', hr', he⟩ := hsig r hr
    rw [he]
    exact hwl r' hr'
  · intro r c
    by_cases hr : r < m.length
    · obtain ⟨r', hr', he⟩ := hsig r hr
      show (getRow (swapRows m i p) r).getD c 0 < 256
      rw [he]
      exact hwe r' c
    · show (getRow (swapRows m i p) r).getD c 0 < 256
      rw [getRow_oob _ _ (by rw [swapRows_length]; omega),
        getD_oob _ _ (Nat.zero_le c)]
      omega
  · intro r hr j hj
    rw [swapRows_length] at hr
    obtain ⟨r', hr', he⟩ := hsig r hr
    have hge : ∀ c, getE (swapRows m i p) r c = getE m r' c := by
      intro c
      show (getRow (swapRows m i p) r).getD c 0 = _
      rw [he]
      rfl
    rw [hge (K + j), hcd r' hr' j hj]
    exact gfSum_congr _ _ _ (fun i' _ => by rw [hge i'])
  · intro c r hc hcr hr
    rw [swapRows_length] at hr
    show (getRow (swapRows m i p) r).getD c 0 = 0
    rw [hrow r]
    by_cases h1 : r = p
    · rw [if_pos h1]
      exact hltz c i hc hc him
    · rw [if_neg h1]
      by_cases h2 : r = i
      · rw [if_pos h2]
        exact hltz c p hc (by omega) hpl
      · rw [if_neg h2]
        exact hltz c r hc hcr hr
  · rw [hrow i, if_neg (by omega), if_pos rfl]

theorem fstep_inv (D : List Nat) (K L : Nat) (m : List (List Nat)) (i : Nat)
    (hD : ∀ t, D.getD t 0 < 256)
    (hw : rowsWF (K + L) m)
    (hcd : matCD D K L m)
    (hltz : LTz m i)
    (hiKL : i < K + L) :
    rowsWF (K + L) (fstep m i) ∧ matCD D K L (fstep m i) ∧ LTz (fstep m i) (i + 1) := by
  unfold fstep
  by_cases hdiag : getE m i i = 0
  · rw [if_pos hdiag]
    cases hfp : findPivot m i with
    | none =>
      refine ⟨hw, hcd, ?_⟩
      intro c r hc hcr hr
      rcases Nat.lt_or_ge c i with h | h
      · exact hltz c r h hcr hr
      · have hci : c = i := by omega
        rw [hci]
        exact findPivot_none m i hfp r (by omega) hr
    | some p =>
      obtain ⟨hip, hpl, hpe⟩ := findPivot_some m i p hfp
      obtain ⟨hw1, hcd1, hltz1, hri⟩ := swapRows_inv D K L m i p hw hcd hltz hip hpl
      have hdiag1 : getE (swapRows m i p) i i ≠ 0 := by
        show (getRow (swapRows m i p) i).getD i 0 ≠ 0
        rw [hri]
        exact hpe
      obtain ⟨hw2, hcd2, hltz2, hkeep2, hclr2⟩ :=
        elimBelow_inv D K L (swapRows m i p) i hD hw1 hcd1 hltz1 hiKL
      refine ⟨hw2, hcd2, ?_⟩
      intro c r hc hcr hr
      rw [elimBelow_length, swapRows_length] at hr
      rcases Nat.lt_or_ge c i with h | h
      · exact hltz2 c r h hcr (by rw [elimBelow_length, swapRows_length]; exact hr)
      · have hci : c = i := by omega
        rw [hci]
        exact hclr2 hdiag1 r (by omega) (by rw [swapRows_length]; exact hr)
  · rw [if_neg hdiag]
    obtain ⟨hw2, hcd2, hltz2, hkeep2, hclr2⟩ :=
      elimBelow_inv D K L m i hD hw hcd hltz hiKL
    refine ⟨hw2, hcd2, ?_⟩
    intro c r hc hcr hr
    rw [elimBelow_length] at hr
    rcases Nat.lt_or_ge c i with h | h
    · exact hltz2 c r h hcr (by rw [elimBelow_length]; exact hr)
    · have hci : c = i := by omega
      rw [hci]
      exact hclr2 hdiag r (by omega) hr

theorem cfAux_inv (D : List Nat) (K L : Nat) (hD : ∀ t, D.getD t 0 < 256) :
    ∀ (fuel : Nat) (m : List (List Nat)) (i : Nat),
      rowsWF (K + L) m → matCD D K L m → LTz m i → i + fuel ≤ K + L →
      rowsWF (K + L) (cfAux m i fuel) ∧ matCD D K L (cfAux m i fuel) ∧
        LTz (cfAux m i fuel) (i + fuel) := by
  intro fuel
  induction fuel with
  | zero =>
    intro m i hw hcd hltz _
    exact ⟨hw, hcd, by simpa using hltz⟩
  | succ fuel ih =>
    intro m i hw hcd hltz hb
    obtain ⟨hw1, hcd1, hltz1⟩ := fstep_inv D K L m i hD hw hcd hltz (by omega)
    obtain ⟨hw2, hcd2, hltz2⟩ := ih (fstep m i) (i + 1) hw1 hcd1 hltz1 (by omega)
    refine ⟨hw2, hcd2, ?_⟩
    have harith : i + (fuel + 1) = (i + 1) + fuel := by omega
    rw [harith]
    exact hltz2

theorem cleanForward_inv (D : List Nat) (K L : Nat) (m : List (List Nat))
    (hD : ∀ t, D.getD t 0 < 256)
    (hw : rowsWF (K + L) m) (hcd : matCD D K L m) (hml : m.length ≤ K + L) :
    rowsWF (K + L) (cleanForward (K + L) m) ∧ matCD D K L (cleanForward (K + L) m) ∧
      LTz (cleanForward (K + L) m) m.length := by
  obtain ⟨hw1, hcd1, hltz1⟩ := cfAux_inv D K L hD (min m.length (K + L)) m 0
    hw hcd (fun c r hc _ _ => absurd hc (Nat.not_lt_zero c)) (by omega)
  refine ⟨hw1, hcd1, ?_⟩
  rw [show m.length = 0 + min m.length (K + L) from by omega]
  exact hltz1

theorem bstep_eq_zero (m : List (List Nat)) (i : Nat) (h : getE m i i = 0) :
    bstep m i = m := by
  unfold bstep
  rw [if_pos h]

theorem bstep_eq_pos (m : List (List Nat)) (i : Nat) (h : getE m i i ≠ 0) :
    bstep m i =
      if getE (clearAbove m i) i i = 1 then clearAbove m i
      else (clearAbove m i).set i
        (normalizeRow i (ginvD (getE (clearAbove m i) i i)) (getRow (clearAbove m i) i)) := by
  unfold bstep
  rw [if_neg h]
  rfl

theorem clearAbove_length (m : List (List Nat)) (i : Nat) :
    (clearAbove m i).length = m.length := by
  unfold clearAbove
  exact mapIdxFrom_length _ _ _

theorem getRow_clearAbove (m : List (List Nat)) (i r : Nat) (hr : r < m.length) :
    getRow (clearAbove m i) r =
      if r < i ∧ getE m r i ≠ 0 then
        fmaFrom i (gdivD (getE m r i) (getE m i i)) (getRow m r) (getRow m i)
      else getRow m r := by
  unfold clearAbove
  rw [getRow_mapIdxFrom _ m 0 r hr, Nat.zero_add]

theorem clearAbove_inv (D : List Nat) (K L : Nat) (m : List (List Nat)) (i : Nat)
    (hD : ∀ t, D.getD t 0 < 256)
    (hw : rowsWF (K + L) m)
    (hcd : matCD D K L m)
    (hltzF : LTz m m.length)
    (him : i < m.length)
    (hpiv : getE m i i ≠ 0) :
    rowsWF (K + L) (clearAbove m i) ∧ matCD D K L (clearAbove m i) ∧
      (∀ r, i ≤ r → r < m.length → getRow (clearAbove m i) r = getRow m r) ∧
      (∀ r, r < i → getE (clearAbove m i) r i = 0) ∧
      (∀ r, r < m.length →
        getRow (clearAbove m i) r = getRow m r ∨
        (r < i ∧ getE m r i ≠ 0 ∧ ∀ t,
          getE (clearAbove m i) r t =
            getE m r t ^^^ gmul (getE m i t) (gdivD (getE m r i) (getE m i i)))) := by
  obtain ⟨hwl, hwe⟩ := hw
  have hkeep : ∀ r, i ≤ r → r < m.length → getRow (clearAbove m i) r = getRow m r := by
    intro r hri hr
    rw [getRow_clearAbove m i r hr, if_neg (by rintro ⟨h1, _⟩; omega)]
  have hfull : ∀ r, r < m.length → r < i → getE m r i ≠ 0 → ∀ t,
      getE (clearAbove m i) r t =
        getE m r t ^^^ gmul (getE m i t) (gdivD (getE m r i) (getE m i i)) := by
    intro r hr hri hne t
    show (getRow (clearAbove m i) r).getD t 0 = _
    rw [getRow_clearAbove m i r hr, if_pos ⟨hri, hne⟩,
      fmaFrom_getD _ _ _ _ (by rw [hwl i him, hwl r hr]) t]
    by_cases ht : t < i
    · rw [if_pos ht,
        show getE m i t = 0 from hltzF t i (by omega) ht him, gmul_zero_left, Nat.xor_zero]
      rfl
    · by_cases ht2 : t < K + L
      · rw [if_neg ht, if_pos (by rw [hwl r hr]; exact ht2)]
        rfl
      · rw [if_neg ht, if_neg (by rw [hwl r hr]; omega),
          show getE m r t = 0 from getD_oob _ _ (by rw [hwl r hr]; omega),
          show getE m i t = 0 from getD_oob _ _ (by rw [hwl i him]; omega),
          gmul_zero_left, Nat.xor_zero]
  have hrow : ∀ r, r < m.length →
      getRow (clearAbove m i) r = getRow m r ∨
      (r < i ∧ getE m r i ≠ 0 ∧ ∀ t,
        getE (clearAbove m i) r t =
          getE m r t ^^^ gmul (getE m i t) (gdivD (getE m r i) (getE m i i))) := by
    intro r hr
    by_cases hg : r < i ∧ getE m r i ≠ 0
    · exact Or.inr ⟨hg.1, hg.2, hfull r hr hg.1 hg.2⟩
    · exact Or.inl (by rw [getRow_clearAbove m i r hr, if_neg hg])
  have hclr : ∀ r, r < i → getE (clearAbove m i) r i = 0 := by
    intro r hri
    have hr : r < m.length := by omega
    by_cases hg : getE m r i = 0
    · rcases hrow r hr with h | ⟨_, h3, _⟩
      · show (getRow (clearAbove m i) r).getD i 0 = 0
        rw [h]
        exact hg
      · exact absurd hg h3
    · rw [hfull r hr hri hg i,
        gmul_gdivD (getE m r i) (getE m i i) (hwe r i) (hwe i i) hpiv,
        Nat.xor_self]
  refine ⟨⟨?_, ?_⟩, ?_, hkeep, hclr, hrow⟩
  · intro r hr
    rw [clearAbove_length] at hr
    rcases hrow r hr with h | ⟨h1, h2, h3⟩
    · rw [h]
      exact hwl r hr
    · show (getRow (clearAbove m i) r).length = K + L
      rw [getRow_clearAbove m i r hr, if_pos ⟨h1, h2⟩,
        fmaFrom_length _ _ _ _ (by rw [hwl i him, hwl r hr])]
      exact hwl r hr
  · intro r c
    by_cases hr : r < m.length
    · rcases hrow r hr with h | ⟨h1, h2, h3⟩
      · show (getRow (clearAbove m i) r).getD c 0 < 256
        rw [h]
        exact hwe r c
      · rw [h3 c]
        exact xor_lt_256 _ _ (hwe r c)
          (gmul_lt _ _ (hwe i c) (gdivD_lt _ _ (hwe r i) (hwe i i)))
    · show (getRow (clearAbove m i) r).getD c 0 < 256
      rw [getRow_oob _ _ (by rw [clearAbove_length]; omega),
        getD_oob _ _ (Nat.zero_le c)]
      omega
  · intro r hr j hj
    rw [clearAbove_length] at hr
    rcases hrow r hr with h | ⟨h1, h2, h3⟩
    · have hge : ∀ c, getE (clearAbove m i) r c = getE m r c := by
        intro c
        show (getRow (clearAbove m i) r).getD c 0 = _
        rw [h]
        rfl
      rw [hge (K + j), hcd r hr j hj]
      exact gfSum_congr _ _ _ (fun i' _ => by rw [hge i'])
    · have hu : funCD (fun t => D.getD t 0) K L (fun t => getE m r t) :=
        fun j' hj' => hcd r hr j' hj'
      have hv : funCD (fun t => D.getD t 0) K L (fun t => getE m i t) :=
        fun j' hj' => hcd i him j' hj'
      have hnew := funCD_fma (fun t => D.getD t 0) K L _ _
        (gdivD (getE m r i) (getE m i i)) (fun t => hD t) (fun t => hwe r t)
        (fun t => hwe i t) (gdivD_lt _ _ (hwe r i) (hwe i i)) hu hv
      exact funCD_ext (fun t => D.getD t 0) K L _ _
        (fun t => (h3 t).symm) hnew j hj

theorem bstep_inv (D : List Nat) (K L : Nat) (m : List (List Nat)) (i : Nat)
    (hD : ∀ t, D.getD t 0 < 256)
    (hw : rowsWF (K + L) m)
    (hcd : matCD D K L m)
    (hltzF : LTz m m.length)
    (hml : m.length ≤ K + L)
    (hB : ∀ j, i < j → Bprop m j) :
    rowsWF (K + L) (bstep m i) ∧ matCD D K L (bstep m i) ∧
      (bstep m i).length = m.length ∧
      LTz (bstep m i) m.length ∧
      (∀ j, i ≤ j → Bprop (bstep m i) j) := by
  by_cases hpiv : getE m i i = 0
  · rw [bstep_eq_zero m i hpiv]
    refine ⟨hw, hcd, rfl, hltzF, ?_⟩
    intro j hij
    rcases Nat.eq_or_lt_of_le hij with he | hlt
    · intro hcon
      rw [← he] at hcon
      exact absurd hpiv hcon
    · exact hB j hlt
  · have him : i < m.length := by
      by_contra hge
      push_neg at hge
      apply hpiv
      show (getRow m i).getD i 0 = 0
      rw [getRow_oob _ _ hge, getD_oob _ _ (Nat.zero_le i)]
    obtain ⟨hw1, hcd1, hkeep1, hclr1, hrow1⟩ :=
      clearAbove_inv D K L m i hD hw hcd hltzF him hpiv
    obtain ⟨hwl, hwe⟩ := hw
    have hlen1 := clearAbove_length m i
    have hri : getRow (clearAbove m i) i = getRow m i := hkeep1 i (Nat.le_refl i) him
    have hdiag1 : getE (clearAbove m i) i i = getE m i i := by
      show (getRow (clearAbove m i) i).getD i 0 = _
      rw [hri]
      rfl
    have hltz1 : LTz (clearAbove m i) m.length := by
      intro c r hc hcr hr
      rw [hlen1] at hr
      rcases hrow1 r hr with h | ⟨h1, h2, h3⟩
      · show (getRow (clearAbove m i) r).getD c 0 = 0
        rw [h]
        exact hltzF c r hc hcr hr
      · rw [h3 c,
          show getE m r c = 0 from hltzF c r hc hcr hr,
          show getE m i c = 0 from hltzF c i (by omega) (by omega) him,
          gmul_zero_left, Nat.xor_zero]
    have hBgt : ∀ j, i < j → Bprop (clearAbove m i) j := by
      intro j hlt hdj
      have hjlen : j < m.length := by
        by_contra hge
        push_neg at hge
        apply hdj
        show (getRow (clearAbove m i) j).getD j 0 = 0
        rw [getRow_oob _ _ (by rw [hlen1]; omega), getD_oob _ _ (Nat.zero_le j)]
      have hrowj : getRow (clearAbove m i) j = getRow m j := hkeep1 j (by omega) hjlen
      have hdj' : getE m j j ≠ 0 := by
        intro h0
        apply hdj
        show (getRow (clearAbove m i) j).getD j 0 = 0
        rw [hrowj]
        exact h0
      obtain ⟨hBd, hBcol⟩ := hB j hlt hdj'
      constructor
      · show (getRow (clearAbove m i) j).getD j 0 = 1
        rw [hrowj]
        exact hBd
      · intro r hrj
        rcases Nat.lt_or_ge r m.length with hr | hr
        · rcases hrow1 r hr with h | ⟨h1, h2, h3⟩
          · show (getRow (clearAbove m i) r).getD j 0 = 0
            rw [h]
            exact hBcol r hrj
          · rw [h3 j,
              show getE m r j = 0 from hBcol r hrj,
              show getE m i j = 0 from hBcol i hlt,
              gmul_zero_left, Nat.xor_zero]
        · show (getRow (clearAbove m i) r).getD j 0 = 0
          rw [getRow_oob _ _ (by rw [hlen1]; omega), getD_oob _ _ (Nat.zero_le j)]
    rw [bstep_eq_pos m i hpiv]
    by_cases hone : getE (clearAbove m i) i i = 1
    · rw [if_pos hone]
      refine ⟨hw1, hcd1, hlen1, hltz1, ?_⟩
      intro j hij
      rcases Nat.eq_or_lt_of_le hij with he | hlt
      · intro _
        constructor
        · rw [← he]
          exact hone
        · intro r hrj
          rw [← he] at hrj ⊢
          exact hclr1 r hrj
      · exact hBgt j hlt
    · rw [if_neg hone, hri, hdiag1]
      -- the normalized matrix overlays row i with the scaled pivot row
      have hinv_lt : ginvD (getE m i i) < 256 := ginvD_lt _ (hwe i i) hpiv
      have hrowlen : (getRow m i).length = K + L := hwl i him
      have hset_i : getRow ((clearAbove m i).set i
          (normalizeRow i (ginvD (getE m i i)) (getRow m i))) i =
          normalizeRow i (ginvD (getE m i i)) (getRow m i) :=
        getRow_set_self _ _ _ (by rw [hlen1]; exact him)
      have hset_ne : ∀ r, r ≠ i → getRow ((clearAbove m i).set i
          (normalizeRow i (ginvD (getE m i i)) (getRow m i))) r =
          getRow (clearAbove m i) r :=
        fun r hr => getRow_set_ne _ _ _ _ (fun h => hr h.symm)
      have hnorm : ∀ t, getE ((clearAbove m i).set i
          (normalizeRow i (ginvD (getE m i i)) (getRow m i))) i t =
          gmul (getE m i t) (ginvD (getE m i i)) := by
        intro t
        show (getRow _ i).getD t 0 = _
        rw [hset_i, normalizeRow_getD _ _ _ (by rw [hrowlen]; omega) t]
        by_cases h1 : t < i
        · rw [if_pos h1,
            show getE m i t = 0 from hltzF t i (by omega) h1 him, gmul_zero_left]
          exact hltzF t i (by omega) h1 him
        · by_cases h2 : t = i
          · rw [if_neg h1, if_pos h2, h2]
            exact (gmul_ginvD _ (hwe i i) hpiv).symm
          · by_cases h3 : t < K + L
            · rw [if_neg h1, if_neg h2, if_pos (by rw [hrowlen]; exact h3)]
              rfl
            · rw [if_neg h1, if_neg h2, if_neg (by rw [hrowlen]; omega),
                show getE m i t = 0 from getD_oob _ _ (by rw [hrowlen]; omega),
                gmul_zero_left]
      have hlen2 : ((clearAbove m i).set i
          (normalizeRow i (ginvD (getE m i i)) (getRow m i))).length = m.length := by
        rw [List.length_set, hlen1]
      refine ⟨⟨?_, ?_⟩, ?_, hlen2, ?_, ?_⟩
      · intro r hr
        rw [hlen2] at hr
        by_cases hre : r = i
        · subst hre
          rw [hset_i, normalizeRow_length _ _ _ (by rw [hrowlen]; omega), hrowlen]
        · rw [hset_ne r hre]
          exact hw1.1 r (by rw [hlen1]; exact hr)
      · intro r c
        by_cases hre : r = i
        · rw [hre, hnorm c]
          exact gmul_lt _ _ (hwe i c) hinv_lt
        · show (getRow _ r).getD c 0 < 256
          rw [hset_ne r hre]
          exact hw1.2 r c
      · intro r hr j hj
        rw [hlen2] at hr
        by_cases hre : r = i
        · rw [hre]
          have hv : funCD (fun t => D.getD t 0) K L (fun t => getE m i t) :=
            fun j' hj' => hcd i him j' hj'
          have hs := funCD_scale (fun t => D.getD t 0) K L _ (ginvD (getE m i i))
            (fun t => hD t) (fun t => hwe i t) hinv_lt hv
          exact funCD_ext (fun t => D.getD t 0) K L _ _
            (fun t => (hnorm t).symm) hs j hj
        · have hge : ∀ c, getE ((clearAbove m i).set i
              (normalizeRow i (ginvD (getE m i i)) (getRow m i))) r c =
              getE (clearAbove m i) r c := by
            intro c
            show (getRow _ r).getD c 0 = _
            rw [hset_ne r hre]
            rfl
          rw [hge (K + j), hcd1 r (by rw [hlen1]; exact hr) j hj]
          exact gfSum_congr _ _ _ (fun i' _ => by rw [hge i'])
      · intro c r hc hcr hr
        rw [hlen2] at hr
        by_cases hre : r = i
        · rw [hre, hnorm c,
            show getE m i c = 0 from hltzF c i (by omega) (by omega) him,
            gmul_zero_left]
        · show (getRow _ r).getD c 0 = 0
          rw [hset_ne r hre]
          exact hltz1 c r hc hcr (by rw [hlen1]; exact hr)
      · intro j hij
        rcases Nat.eq_or_lt_of_le hij with he | hlt
        · intro _
          rw [← he]
          constructor
          · rw [hnorm i, gmul_ginvD _ (hwe i i) hpiv]
          · intro r hrj
            show (getRow _ r).getD i 0 = 0
            rw [hset_ne r (by omega)]
            exact hclr1 r hrj
        · intro hdj
          have hdj1 : getE (clearAbove m i) j j ≠ 0 := by
            intro h0
            apply hdj
            show (getRow _ j).getD j 0 = 0
            rw [hset_ne j (by omega)]
            exact h0
          obtain ⟨hBd, hBcol⟩ := hBgt j hlt hdj1
          constructor
          · show (getRow _ j).getD j 0 = 1
            rw [hset_ne j (by omega)]
            exact hBd
          · intro r hrj
            by_cases hre : r = i
            · have hjlen : j < m.length := by
                by_contra hge2
                push_neg at hge2
                apply hdj1
                show (getRow (clearAbove m i) j).getD j 0 = 0
                rw [getRow_oob _ _ (by rw [hlen1]; omega), getD_oob _ _ (Nat.zero_le j)]
              have hrowj : getRow (clearAbove m i) j = getRow m j :=
                hkeep1 j (by omega) hjlen
              have hdj' : getE m j j ≠ 0 := by
                intro h0
                apply hdj1
                show (getRow (clearAbove m i) j).getD j 0 = 0
                rw [hrowj]
                exact h0
              rw [hre, hnorm j,
                show getE m i j = 0 from (hB j hlt hdj').2 i hlt, gmul_zero_left]
            · show (getRow _ r).getD j 0 = 0
              rw [hset_ne r hre]
              exact hBcol r hrj

theorem cbAux_inv (D : List Nat) (K L : Nat) (hD : ∀ t, D.getD t 0 < 256) :
    ∀ (n : Nat) (m : List (List Nat)),
      rowsWF (K + L) m → matCD D K L m → LTz m m.length → m.length ≤ K + L →
      (∀ j, n ≤ j → Bprop m j) →
      rowsWF (K + L) (cbAux m n) ∧ matCD D K L (cbAux m n) ∧
        (cbAux m n).length = m.length ∧ LTz (cbAux m n) (cbAux m n).length ∧
        (∀ j, Bprop (cbAux m n) j) := by
  intro n
  induction n with
  | zero =>
    intro m hw hcd hltz hml hB
    exact ⟨hw, hcd, rfl, hltz, fun j => hB j (Nat.zero_le j)⟩
  | succ n ih =>
    intro m hw hcd hltz hml hB
    obtain ⟨hw1, hcd1, hlen1, hltz1, hB1⟩ :=
      bstep_inv D K L m n hD hw hcd (by rwa [show m.length = m.length from rfl])
        hml (fun j hj => hB j (by omega))
    obtain ⟨hw2, hcd2, hlen2, hltz2, hB2⟩ := ih (bstep m n) hw1 hcd1
      (by rw [hlen1]; exact hltz1) (by rw [hlen1]; exact hml) hB1
    refine ⟨hw2, hcd2, ?_, hltz2, hB2⟩
    show (cbAux (bstep m n) n).length = m.length
    rw [hlen2, hlen1]

theorem cleanBackward_inv (D : List Nat) (K L : Nat) (m : List (List Nat))
    (hD : ∀ t, D.getD t 0 < 256)
    (hw : rowsWF (K + L) m) (hcd : matCD D K L m) (hltz : LTz m m.length)
    (hml : m.length ≤ K + L) :
    rowsWF (K + L) (cleanBackward (K + L) m) ∧ matCD D K L (cleanBackward (K + L) m) ∧
      (cleanBackward (K + L) m).length = m.length ∧
      LTz (cleanBackward (K + L) m) (cleanBackward (K + L) m).length ∧
      (∀ j, Bprop (cleanBackward (K + L) m) j) := by
  have hBinit : ∀ j, min m.length (K + L) ≤ j → Bprop m j := by
    intro j hj hdj
    exfalso
    apply hdj
    show (getRow m j).getD j 0 = 0
    rw [getRow_oob _ _ (by omega), getD_oob _ _ (Nat.zero_le j)]
  exact cbAux_inv D K L hD (min m.length (K + L)) m hw hcd hltz hml hBinit

theorem tail_rows_zero (K : Nat) (M : List (List Nat)) (hltz : LTz M M.length)
    (r : Nat) (hrK : K ≤ r) (hr : r < M.length) :
    coeffNonzero K (getRow M r) = false := by
  unfold coeffNonzero
  rw [List.any_eq_false]
  intro c hc
  rw [List.mem_range] at hc
  have hz : (getRow M r).getD c 0 = 0 := hltz c r (by omega) (by omega) hr
  rw [hz]
  simp

theorem getRow_take (M : List (List Nat)) (K t : Nat) (ht : t < K) :
    getRow (M.take K) t = getRow M t := by
  unfold getRow
  rw [List.getD_eq_getElem?_getD, List.getD_eq_getElem?_getD, List.getElem?_take,
    if_pos ht]

theorem filter_take_of_count (K : Nat) (M : List (List Nat))
    (hltz : LTz M M.length)
    (hcnt : (M.filter (coeffNonzero K)).length = K) :
    K ≤ M.length ∧ M.filter (coeffNonzero K) = M.take K ∧
      (∀ t, t < K → coeffNonzero K (getRow M t) = true) := by
  have hKM : K ≤ M.length := by
    have := List.length_filter_le (coeffNonzero K) M
    omega
  have hdrop : ∀ row ∈ M.drop K, coeffNonzero K row = false := by
    intro row hrow
    obtain ⟨j, hj, hje⟩ := List.mem_iff_getElem.mp hrow
    have hjl : j < M.length - K := by simpa using hj
    have hrow_eq : row = getRow M (K + j) := by
      rw [← hje]
      unfold getRow
      rw [List.getElem_drop, List.getD_eq_getElem?_getD,
        List.getElem?_eq_getElem (by omega)]
      rfl
    rw [hrow_eq]
    exact tail_rows_zero K M hltz (K + j) (by omega) (by omega)
  have hsplit : M.filter (coeffNonzero K) = (M.take K).filter (coeffNonzero K) := by
    conv_lhs => rw [← List.take_append_drop K M]
    rw [List.filter_append,
      show (M.drop K).filter (coeffNonzero K) = [] from
        List.filter_eq_nil_iff.mpr (fun a ha => by rw [hdrop a ha]; exact Bool.false_ne_true),
      List.append_nil]
  have htklen : (M.take K).length = K := by
    rw [List.length_take]
    omega
  have hall : ∀ row ∈ M.take K, coeffNonzero K row = true := by
    apply List.filter_length_eq_length.mp
    rw [← hsplit, hcnt, htklen]
  refine ⟨hKM, ?_, ?_⟩
  · rw [hsplit, List.filter_eq_self.mpr hall]
  · intro t ht
    have hmem : getRow M t ∈ M.take K := by
      rw [← getRow_take M K t ht]
      unfold getRow
      rw [List.getD_eq_getElem?_getD, List.getElem?_eq_getElem (by rw [htklen]; exact ht)]
      exact List.getElem_mem _
    exact hall _ hmem

theorem endgame_ident (K : Nat) (M : List (List Nat))
    (hltz : LTz M M.length) (hB : ∀ j, Bprop M j) (hKM : K ≤ M.length)
    (hkept : ∀ t, t < K → coeffNonzero K (getRow M t) = true) :
    ∀ t, t < K → ∀ c, c < K → getE M t c = if c = t then 1 else 0 := by
  have main : ∀ d t, t < K → K - t ≤ d → ∀ c, c < K →
      getE M t c = if c = t then 1 else 0 := by
    intro d
    induction d with
    | zero =>
      intro t ht hd
      omega
    | succ d ih =>
      intro t ht hd
      have hex : ∃ c, c < K ∧ getE M t c ≠ 0 := by
        have hk := hkept t ht
        unfold coeffNonzero at hk
        rw [List.any_eq_true] at hk
        obtain ⟨c, hc, hp⟩ := hk
        rw [List.mem_range] at hc
        refine ⟨c, hc, ?_⟩
        show (getRow M t).getD c 0 ≠ 0
        simpa using hp
      obtain ⟨c0, hc0K, hc0ne⟩ := hex
      have hc0t : t ≤ c0 := by
        by_contra hlt
        push_neg at hlt
        exact hc0ne (hltz c0 t (by omega) hlt (by omega))
      have hdiag : getE M t t ≠ 0 := by
        rcases Nat.eq_or_lt_of_le hc0t with he | hlt
        · rw [he]
          rw [he] at hc0ne
          exact hc0ne
        · exfalso
          have hident := ih c0 hc0K (by omega)
          have hdc0 : getE M c0 c0 = 1 := by
            have hh := hident c0 hc0K
            rw [if_pos rfl] at hh
            exact hh
          exact hc0ne ((hB c0 (by rw [hdc0]; omega)).2 t hlt)
      obtain ⟨hBd, hBcol⟩ := hB t hdiag
      intro c hcK
      by_cases hct : c = t
      · rw [if_pos hct, hct]
        exact hBd
      · rw [if_neg hct]
        rcases Nat.lt_or_ge c t with h | h
        · exact hltz c t (by omega) h (by omega)
        · have hc_gt : t < c := by omega
          have hident := ih c hcK (by omega)
          have hdc : getE M c c = 1 := by
            have hh := hident c hcK
            rw [if_pos rfl] at hh
            exact hh
          exact (hB c (by rw [hdc]; omega)).2 t hc_gt
  intro t ht
  exact main K t ht (by omega)

theorem chunksExact_flatten_rows (sz : Nat) (h0 : 0 < sz) :
    ∀ (m : List (List Nat)), (∀ row ∈ m, row.length = sz) →
      chunksExact sz m.flatten = m := by
  intro m
  induction m with
  | nil =>
    intro _
    rw [List.flatten_nil, chunksExact_nil sz [] (by simp; omega)]
  | cons r rs ih =>
    intro h
    have hr : r.length = sz := h r (by simp)
    rw [List.flatten_cons,
      chunksExact_cons sz _ h0 (by rw [List.length_append]; omega),
      show List.take sz (r ++ rs.flatten) = r from by rw [← hr, List.take_left],
      show List.drop sz (r ++ rs.flatten) = rs.flatten from by rw [← hr, List.drop_left],
      ih (fun row hrow => h row (by simp [hrow]))]

theorem rowsWF_sub (cols : Nat) (M F : List (List Nat)) (hw : rowsWF cols M)
    (hsub : ∀ row ∈ F, row ∈ M) : rowsWF cols F := by
  obtain ⟨hwl, hwe⟩ := hw
  have hmem : ∀ row ∈ M, row.length = cols ∧ ∀ c, row.getD c 0 < 256 := by
    intro row hrow
    obtain ⟨r', hr', he⟩ := List.mem_iff_getElem.mp hrow
    have hgr : getRow M r' = row := by
      unfold getRow
      rw [List.getD_eq_getElem?_getD, List.getElem?_eq_getElem hr']
      exact he
    exact ⟨by rw [← hgr]; exact hwl r' hr', fun c => by rw [← hgr]; exact hwe r' c⟩
  constructor
  · intro r hr
    have hrm : getRow F r ∈ M := by
      apply hsub
      unfold getRow
      rw [List.getD_eq_getElem?_getD, List.getElem?_eq_getElem hr]
      exact List.getElem_mem hr
    exact (hmem _ hrm).1
  · intro r c
    by_cases hr : r < F.length
    · have hrm : getRow F r ∈ M := by
        apply hsub
        unfold getRow
        rw [List.getD_eq_getElem?_getD, List.getElem?_eq_getElem hr]
        exact List.getElem_mem hr
      exact (hmem _ hrm).2 c
    · show (getRow F r).getD c 0 < 256
      rw [getRow_oob _ _ (by omega), getD_oob _ _ (Nat.zero_le c)]
      omega

theorem matCD_sub (D : List Nat) (K L : Nat) (M F : List (List Nat))
    (hcd : matCD D K L M) (hsub : ∀ row ∈ F, row ∈ M) : matCD D K L F := by
  have hmem : ∀ row ∈ M, ∀ j, j < L →
      row.getD (K + j) 0 = gfSum K (fun i => gmul (D.getD (i * L + j) 0) (row.getD i 0)) := by
    intro row hrow j hj
    obtain ⟨r', hr', he⟩ := List.mem_iff_getElem.mp hrow
    have hgr : getRow M r' = row := by
      unfold getRow
      rw [List.getD_eq_getElem?_getD, List.getElem?_eq_getElem hr']
      exact he
    have := hcd r' hr' j hj
    rw [show getE M r' (K + j) = row.getD (K + j) 0 from by rw [getE, hgr]] at this
    rw [this]
    exact gfSum_congr _ _ _ (fun i _ => by rw [show getE M r' i = row.getD i 0 from by rw [getE, hgr]])
  intro r hr j hj
  have hrm : getRow F r ∈ M := by
    apply hsub
    unfold getRow
    rw [List.getD_eq_getElem?_getD, List.getElem?_eq_getElem hr]
    exact List.getElem_mem hr
  exact hmem _ hrm j hj

theorem rref_structure (D : List Nat) (K L : Nat) (mat : DecoderMatrix)
    (hD : ∀ t, D.getD t 0 < 256)
    (hcols : mat.cols = K + L)
    (hnum : mat.num_pieces_coded_together = K)
    (hw : rowsWF (K + L) mat.elements)
    (hcd : matCD D K L mat.elements)
    (hml : mat.elements.length ≤ K + L) :
    rowsWF (K + L) mat.rref.elements ∧ matCD D K L mat.rref.elements ∧
      (mat.rref.elements.length = K →
        ∀ t c, t < K → c < K → getE mat.rref.elements t c = if c = t then 1 else 0) := by
  have he : mat.rref.elements =
      (cleanBackward (K + L) (cleanForward (K + L) mat.elements)).filter (coeffNonzero K) := by
    show removeZeroRows mat.num_pieces_coded_together
      (cleanBackward mat.cols (cleanForward mat.cols mat.elements)) = _
    rw [hcols, hnum]
    rfl
  obtain ⟨hwF, hcdF, hltzF⟩ := cleanForward_inv D K L mat.elements hD hw hcd hml
  have hlenF : (cleanForward (K + L) mat.elements).length = mat.elements.length :=
    cleanForward_length _ _
  obtain ⟨hwB, hcdB, hlenB, hltzB, hBB⟩ :=
    cleanBackward_inv D K L (cleanForward (K + L) mat.elements) hD hwF hcdF
      (by rw [hlenF]; exact hltzF) (by rw [hlenF]; exact hml)
  have hsub : ∀ row ∈ mat.rref.elements,
      row ∈ cleanBackward (K + L) (cleanForward (K + L) mat.elements) := by
    intro row hrow
    rw [he] at hrow
    exact List.mem_of_mem_filter hrow
  refine ⟨rowsWF_sub _ _ _ hwB hsub, matCD_sub _ _ _ _ _ hcdB hsub, ?_⟩
  intro hcnt t c ht hc
  rw [he] at hcnt
  obtain ⟨hKM, hfeq, hkept⟩ := filter_take_of_count K _ hltzB hcnt
  have hident := endgame_ident K _ hltzB hBB hKM hkept
  have hgr : getRow mat.rref.elements t =
      getRow (cleanBackward (K + L) (cleanForward (K + L) mat.elements)) t := by
    rw [he, hfeq]
    exact getRow_take _ K t ht
  show (getRow mat.rref.elements t).getD c 0 = _
  rw [hgr]
  exact hident t ht c hc

theorem getD_lt_of_mem (p : List Nat) (hp : ∀ x ∈ p, x < 256) (c : Nat) :
    p.getD c 0 < 256 := by
  by_cases hc : c < p.length
  · rw [List.getD_eq_getElem _ _ hc]
    exact hp _ (List.getElem_mem hc)
  · rw [getD_oob _ _ (by omega)]
    omega

theorem getRow_append_lt (m : List (List Nat)) (p : List Nat) (r : Nat)
    (hr : r < m.length) : getRow (m ++ [p]) r = getRow m r := by
  unfold getRow
  rw [List.getD_eq_getElem?_getD, List.getD_eq_getElem?_getD, List.getElem?_append,
    if_pos hr]

theorem getRow_append_last (m : List (List Nat)) (p : List Nat) :
    getRow (m ++ [p]) m.length = p := by
  unfold getRow
  rw [List.getD_eq_getElem?_getD, List.getElem?_append, if_neg (by omega), Nat.sub_self]
  rfl

theorem rowsWF_append (cols : Nat) (m : List (List Nat)) (p : List Nat)
    (hw : rowsWF cols m) (hpl : p.length = cols) (hpe : ∀ x ∈ p, x < 256) :
    rowsWF cols (m ++ [p]) := by
  obtain ⟨hwl, hwe⟩ := hw
  constructor
  · intro r hr
    rw [List.length_append, List.length_cons, List.length_nil] at hr
    rcases Nat.lt_or_ge r m.length with h | h
    · rw [getRow_append_lt m p r h]
      exact hwl r h
    · have hrm : r = m.length := by omega
      rw [hrm, getRow_append_last]
      exact hpl
  · intro r c
    rcases Nat.lt_or_ge r m.length with h | h
    · show (getRow (m ++ [p]) r).getD c 0 < 256
      rw [getRow_append_lt m p r h]
      exact hwe r c
    · rcases Nat.eq_or_lt_of_le h with he | hgt
      · show (getRow (m ++ [p]) r).getD c 0 < 256
        rw [← he, getRow_append_last]
        exact getD_lt_of_mem p hpe c
      · show (getRow (m ++ [p]) r).getD c 0 < 256
        rw [getRow_oob _ _
            (by rw [List.length_append, List.length_cons, List.length_nil]; omega),
          getD_oob _ _ (Nat.zero_le c)]
        omega

theorem matCD_append (D : List Nat) (K L : Nat) (m : List (List Nat)) (p : List Nat)
    (hcd : matCD D K L m)
    (hpcd : ∀ j, j < L → p.getD (K + j) 0 =
      gfSum K (fun i => gmul (D.getD (i * L + j) 0) (p.getD i 0))) :
    matCD D K L (m ++ [p]) := by
  intro r hr j hj
  rw [List.length_append, List.length_cons, List.length_nil] at hr
  rcases Nat.lt_or_ge r m.length with h | h
  · have hge : ∀ c, getE (m ++ [p]) r c = getE m r c := by
      intro c
      show (getRow (m ++ [p]) r).getD c 0 = _
      rw [getRow_append_lt m p r h]
      rfl
    rw [hge (K + j), hcd r h j hj]
    exact gfSum_congr _ _ _ (fun i _ => by rw [hge i])
  · have hrm : r = m.length := by omega
    have hge : ∀ c, getE (m ++ [p]) r c = p.getD c 0 := by
      intro c
      show (getRow (m ++ [p]) r).getD c 0 = _
      rw [hrm, getRow_append_last]
    rw [hge (K + j), hpcd j hj]
    exact gfSum_congr _ _ _ (fun i _ => by rw [hge i])

theorem decode_goodInv (D : List Nat) (K L : Nat) (d : Decoder) (p : List Nat)
    (hL : 1 ≤ L)
    (hD : ∀ t, D.getD t 0 < 256)
    (hpe : ∀ x ∈ p, x < 256)
    (hpcd : ∀ j, j < L → p.getD (K + j) 0 =
      gfSum K (fun i => gmul (D.getD (i * L + j) 0) (p.getD i 0)))
    (hg : goodInv D K L d) :
    goodInv D K L (d.decode p).1 := by
  obtain ⟨h1, h2, h3, h4, h5, h6, h7, h8⟩ := hg
  unfold Decoder.decode
  by_cases hd : d.is_already_decoded
  · rw [if_pos hd]
    exact ⟨h1, h2, h3, h4, h5, h6, h7, h8⟩
  · rw [if_neg hd]
    by_cases hlen : p.length ≠ d.get_full_coded_piece_byte_len
    · rw [if_pos hlen]
      exact ⟨h1, h2, h3, h4, h5, h6, h7, h8⟩
    · rw [if_neg hlen]
      cases hadd : d.matrix.add_row p with
      | error e =>
        exact ⟨h1, h2, h3, h4, h5, h6, h7, h8⟩
      | ok m1 =>
        have hm1 : m1 = DecoderMatrix.mk d.matrix.num_pieces_coded_together
            d.matrix.cols (d.matrix.elements ++ [p]) ∧ p.length = d.matrix.cols := by
          unfold DecoderMatrix.add_row at hadd
          by_cases hc : p.length ≠ d.matrix.cols
          · rw [if_pos hc] at hadd
            exact Except.noConfusion hadd
          · rw [if_neg hc] at hadd
            cases hadd
            exact ⟨rfl, by omega⟩
        obtain ⟨hm1e, hplen⟩ := hm1
        have hrk : d.matrix.rank ≠ K := by
          intro hcon
          exact hd (by simp [Decoder.is_already_decoded, hcon, h2])
        have hw1 : rowsWF (K + L) m1.elements := by
          rw [hm1e]
          exact rowsWF_append (K + L) _ p h5 (by rw [hplen, h3]) hpe
        have hcd1 : matCD D K L m1.elements := by
          rw [hm1e]
          exact matCD_append D K L _ p h6 hpcd
        have hml1 : m1.elements.length ≤ K + L := by
          rw [hm1e]
          show (d.matrix.elements ++ [p]).length ≤ K + L
          rw [List.length_append, List.length_cons, List.length_nil]
          have he2 : d.matrix.elements.length = d.matrix.rank := rfl
          omega
        have hc1 : m1.cols = K + L := by
          rw [hm1e]
          exact h3
        have hn1 : m1.num_pieces_coded_together = K := by
          rw [hm1e]
          exact h4
        obtain ⟨hwR, hcdR, hidR⟩ := rref_structure D K L m1 hD hc1 hn1 hw1 hcd1 hml1
        have hrankR : m1.rref.elements.length ≤ K := by
          have hle := rref_rank_le m1
          have hm1len : m1.rank = d.matrix.rank + 1 := by
            rw [hm1e]
            show (d.matrix.elements ++ [p]).length = _
            rw [List.length_append, List.length_cons, List.length_nil]
            rfl
          show m1.rref.rank ≤ K
          omega
        by_cases heq : d.matrix.rank = m1.rref.rank
        · simp only [if_pos heq]
          exact ⟨h1, h2, hc1, hn1, hwR, hcdR, hrankR, hidR⟩
        · simp only [if_neg heq]
          exact ⟨h1, h2, hc1, hn1, hwR, hcdR, hrankR, hidR⟩

theorem feed_goodInv (D : List Nat) (K L : Nat) (hL : 1 ≤ L)
    (hD : ∀ t, D.getD t 0 < 256) :
    ∀ (ps : List (List Nat)) (d : Decoder), goodInv D K L d →
      (∀ p ∈ ps, (∀ x ∈ p, x < 256) ∧ ∀ j, j < L → p.getD (K + j) 0 =
        gfSum K (fun i => gmul (D.getD (i * L + j) 0) (p.getD i 0))) →
      goodInv D K L (feed d ps) := by
  intro ps
  induction ps with
  | nil =>
    intro d hg _
    exact hg
  | cons p ps ih =>
    intro d hg hps
    have hstep := decode_goodInv D K L d p hL hD (hps p (by simp)).1
      (hps p (by simp)).2 hg
    have hrest := ih (d.decode p).1 hstep
      (fun p' hp' => hps p' (by simp [hp']))
    exact hrest

theorem rowsWF_mem_length (cols : Nat) (M : List (List Nat)) (hw : rowsWF cols M) :
    ∀ row ∈ M, row.length = cols := by
  intro row hrow
  obtain ⟨r', hr', he⟩ := List.mem_iff_getElem.mp hrow
  have hgr : getRow M r' = row := by
    unfold getRow
    rw [List.getD_eq_getElem?_getD, List.getElem?_eq_getElem hr']
    exact he
  rw [← hgr]
  exact hw.1 r' hr'

theorem codedRow_entries_lt (D : List Nat) (K L : Nat) (c : List Nat)
    (hD : ∀ t, D.getD t 0 < 256) (hc : ∀ x ∈ c, x < 256) :
    ∀ x ∈ codedRow D K L c, x < 256 := by
  intro x hx
  rw [codedRow, List.mem_append] at hx
  rcases hx with h | h
  · exact hc x h
  · obtain ⟨j, hj, hje⟩ := List.mem_iff_getElem.mp h
    have hjL : j < L := by
      rw [payloadSpec_length] at hj
      exact hj
    have hpj := payloadSpec_getD D K L c j hjL
    rw [List.getD_eq_getElem _ _ (by rw [payloadSpec_length]; exact hjL)] at hpj
    rw [← hje, hpj]
    exact gfSum_lt _ _ (fun i _ => gmul_lt _ _ (hD _) (getD_lt_of_mem c hc _))

theorem codedRow_CD (D : List Nat) (K L : Nat) (c : List Nat) (hc : c.length = K) :
    ∀ j, j < L → (codedRow D K L c).getD (K + j) 0 =
      gfSum K (fun i => gmul (D.getD (i * L + j) 0) ((codedRow D K L c).getD i 0)) := by
  intro j hj
  rw [codedRow, getD_append_right _ _ _ (by rw [hc]; omega)]
  have hidx : K + j - c.length = j := by rw [hc]; omega
  rw [hidx, payloadSpec_getD D K L c j hj]
  apply gfSum_congr
  intro i hi
  rw [getD_append_left _ _ _ (by rw [hc]; exact hi)]

theorem listResize_length (l : List Nat) (n : Nat) (hln : l.length ≤ n) :
    (listResize l n).length = n := by
  unfold listResize
  rw [List.length_append, List.length_take, List.length_replicate]
  omega

theorem listResize_getD (l : List Nat) (n t : Nat) (hln : l.length ≤ n) :
    (listResize l n).getD t 0 = if t < l.length then l.getD t 0 else 0 := by
  unfold listResize
  by_cases ht : t < l.length
  · rw [if_pos ht, getD_append_left _ _ _ (by rw [List.length_take]; omega),
      getD_take _ _ _ (by omega)]
  · rw [if_neg ht]
    by_cases ht2 : t < n
    · rw [getD_append_right _ _ _ (by rw [List.length_take]; omega)]
      exact getD_replicate_zero _ _
    · exact getD_oob _ _ (by
        rw [List.length_append, List.length_take, List.length_replicate]
        omega)

theorem encoder_new_facts (data : List Nat) (K : Nat) (e : Encoder)
    (he : Encoder.new data K = .ok e) :
    data.length ≠ 0 ∧ K ≠ 0 ∧
    e.piece_count = K ∧
    data.length + 1 ≤ K * e.piece_byte_len ∧
    e.data.length = K * e.piece_byte_len ∧
    (∀ t, t < data.length → e.data.getD t 0 = data.getD t 0) ∧
    e.data.getD data.length 0 = 129 ∧
    (∀ t, data.length < t → e.data.getD t 0 = 0) := by
  unfold Encoder.new at he
  by_cases h0 : data.length = 0
  · rw [if_pos h0] at he
    exact Except.noConfusion he
  · rw [if_neg h0] at he
    by_cases hK : K = 0
    · rw [if_pos hK] at he
      exact Except.noConfusion he
    · rw [if_neg hK] at he
      cases he
      have hceil : data.length + 1 ≤
          K * ((data.length + 1 + (K - 1)) / K) := by
        have hdm := Nat.div_add_mod (data.length + 1 + (K - 1)) K
        have hmod := Nat.mod_lt (data.length + 1 + (K - 1)) (show 0 < K by omega)
        omega
      have hrl : (listResize data
          (K * ((data.length + 1 + (K - 1)) / K))).length =
          K * ((data.length + 1 + (K - 1)) / K) :=
        listResize_length _ _ (by omega)
      refine ⟨h0, hK, rfl, hceil, ?_, ?_, ?_, ?_⟩
      · show ((listResize data _).set data.length 129).length = _
        rw [List.length_set, hrl]
      · intro t ht
        show ((listResize data _).set data.length 129).getD t 0 = _
        rw [getD_set_ne _ _ _ _ (by omega),
          listResize_getD _ _ _ (by omega), if_pos ht]
      · show ((listResize data _).set data.length 129).getD data.length 0 = 129
        rw [getD_set_self _ _ _ (by rw [hrl]; omega)]
      · intro t ht
        show ((listResize data _).set data.length 129).getD t 0 = 0
        rw [getD_set_ne _ _ _ _ (by omega),
          listResize_getD _ _ _ (by omega), if_neg (by omega)]

theorem decodedBoundary_padded (pl : List Nat) (n : Nat) (hn1 : 1 ≤ n)
    (hnl : n < pl.length) (hmark : pl.getD n 0 = 129)
    (hzero : ∀ t, n < t → t < pl.length → pl.getD t 0 = 0) :
    decodedBoundary pl = .ok (pl.take n) := by
  cases hfind : pl.reverse.findIdx? (fun byte => byte == 129) with
  | none => exact absurd hmark (revFind_none pl hfind n hnl)
  | some k =>
    obtain ⟨hk, hm129, hmlast⟩ := revFind_some pl k hfind
    have hmn : pl.length - 1 - k = n := by
      rcases Nat.lt_trichotomy (pl.length - 1 - k) n with h | h | h
      · exact absurd hmark (hmlast n hnl h)
      · exact h
      · exfalso
        rw [hzero (pl.length - 1 - k) h (by omega)] at hm129
        omega
    have hnoany : ¬((pl.drop ((pl.length - 1 - k) + 1)).any
        (fun byte => byte != 0) = true) := by
      intro hany
      obtain ⟨i, hi, hmi, hne⟩ := (any_drop_getD pl (pl.length - 1 - k)).mp hany
      exact hne (hzero i (by omega) hi)
    unfold decodedBoundary
    rw [hfind]
    simp only []
    rw [if_neg (by omega), if_neg hnoany, hmn]

theorem goodInv_decoded (D : List Nat) (K L : Nat) (d : Decoder)
    (hK : 1 ≤ K) (hL : 1 ≤ L)
    (hg : goodInv D K L d)
    (hrank : d.matrix.rank = K)
    (hDlen : D.length = K * L)
    (hD : ∀ t, D.getD t 0 < 256) :
    d.get_decoded_data = decodedBoundary D := by
  obtain ⟨h1, h2, h3, h4, h5, h6, h7, h8⟩ := hg
  have hident := h8 hrank
  have hElen : d.matrix.elements.length = K := hrank
  have hrows : ∀ row ∈ d.matrix.elements, row.length = K + L :=
    rowsWF_mem_length (K + L) _ h5
  have hchunks : chunksExact (K + L) d.matrix.elements.flatten = d.matrix.elements :=
    chunksExact_flatten_rows (K + L) (by omega) _ hrows
  have hdlen : ∀ ch ∈ d.matrix.elements.map (fun fp => fp.drop K), ch.length = L := by
    intro ch hch
    obtain ⟨row, hrow, hre⟩ := List.mem_map.mp hch
    rw [← hre, List.length_drop, hrows row hrow]
    omega
  have hdlen0 : ∀ ch ∈ d.matrix.elements, (List.drop K ch).length = L := by
    intro ch hch
    rw [List.length_drop, hrows ch hch]
    omega
  have hpl_eq : ((chunksExact (d.required_piece_count + d.piece_byte_len)
      d.matrix.extract_data).map
      (fun full_decoded_piece => full_decoded_piece.drop d.required_piece_count)).flatten =
      (d.matrix.elements.map (fun fp => fp.drop K)).flatten := by
    rw [h1, h2,
      show d.matrix.extract_data = d.matrix.elements.flatten from rfl, hchunks]
  have hplget : ∀ t j, t < K → j < L →
      ((d.matrix.elements.map (fun fp => fp.drop K)).flatten).getD (t * L + j) 0 =
      getE d.matrix.elements t (K + j) := by
    intro t j ht hj
    rw [flatten_uniform_getD L _ hdlen t j (by rw [List.length_map, hElen]; exact ht) hj,
      getD_map_lists _ _ t (by rw [hElen]; exact ht), getD_drop]
    rfl
  have hpay : ∀ t j, t < K → j < L →
      getE d.matrix.elements t (K + j) = D.getD (t * L + j) 0 := by
    intro t j ht hj
    rw [h6 t (by rw [hElen]; exact ht) j hj]
    have hcongr : ∀ i, i < K →
        gmul (D.getD (i * L + j) 0) (getE d.matrix.elements t i) =
        (fun i => if i = t then D.getD (t * L + j) 0 else 0) i := by
      intro i hi
      show gmul (D.getD (i * L + j) 0) (getE d.matrix.elements t i) =
        if i = t then D.getD (t * L + j) 0 else 0
      rw [hident t i ht hi]
      by_cases hit : i = t
      · rw [if_pos hit, if_pos hit, gmul_one_right _ (hD _), hit]
      · rw [if_neg hit, if_neg hit, gmul_zero_right]
    rw [gfSum_congr _ _ _ hcongr, gfSum_delta K t _ (by omega)]
  have hplD : ((chunksExact (d.required_piece_count + d.piece_byte_len)
      d.matrix.extract_data).map
      (fun full_decoded_piece => full_decoded_piece.drop d.required_piece_count)).flatten
      = D := by
    rw [hpl_eq]
    apply list_ext_getD
    · rw [flatten_map_length (fun fp => List.drop K fp) L d.matrix.elements hdlen0,
        hElen, hDlen]
    · intro idx hidx
      rw [flatten_map_length (fun fp => List.drop K fp) L d.matrix.elements hdlen0] at hidx
      rw [hElen] at hidx
      have hLpos : 0 < L := by omega
      have ht : idx / L < K := Nat.div_lt_iff_lt_mul hLpos |>.mpr (by omega)
      have hj : idx % L < L := Nat.mod_lt idx hLpos
      have hdm : idx / L * L + idx % L = idx := by
        rw [Nat.mul_comm]
        exact Nat.div_add_mod idx L
      rw [← hdm, hplget (idx / L) (idx % L) ht hj, hpay (idx / L) (idx % L) ht hj]
  have hisb : d.is_already_decoded = true := by
    simp [Decoder.is_already_decoded, hrank, h2]
  unfold Decoder.get_decoded_data
  rw [hisb, hplD]
  rfl

/-- C1: end-to-end round trip. For every nonempty byte vector `data` and
piece count `K` accepted by `Encoder::new`, feeding any sequence of full
coded pieces produced by `code_with_coding_vector` into a fresh
`Decoder::new(L, K)` decoder such that `K` useful pieces end up accepted
makes `get_decoded_data` return exactly the original `data`. -/
theorem C1_roundtrip (data : List Nat) (K : Nat)
    (hdata : data ≠ []) (hbytes : ∀ x ∈ data, x < 256)
    (e : Encoder) (he : Encoder.new data K = .ok e)
    (d0 : Decoder) (hd0 : Decoder.new e.piece_byte_len K = .ok d0)
    (ps : List (List Nat))
    (hps : ∀ p ∈ ps, ∃ c, (∀ x ∈ c, x < 256) ∧ e.code_with_coding_vector c = .ok p)
    (hfull : (feed d0 ps).useful_piece_count = K) :
    (feed d0 ps).get_decoded_data = .ok data := by
  obtain ⟨h0, hKne, hpc, hceil, hdl, hpref, hmark, htail⟩ := encoder_new_facts data K e he
  have hK : 1 ≤ K := by omega
  have hL : 1 ≤ e.piece_byte_len := by
    by_contra hc
    push_neg at hc
    have hl0 : e.piece_byte_len = 0 := by omega
    rw [hl0, Nat.mul_zero] at hceil
    omega
  have hD : ∀ t, e.data.getD t 0 < 256 := by
    intro t
    rcases Nat.lt_trichotomy t data.length with h | h | h
    · rw [hpref t h]
      exact getD_lt_of_mem data hbytes t
    · rw [h, hmark]
      omega
    · rw [htail t h]
      omega
  have hd0facts : d0 =
      Decoder.mk (DecoderMatrix.new K e.piece_byte_len) e.piece_byte_len K 0 0 := by
    unfold Decoder.new at hd0
    rw [if_neg (by omega), if_neg (by omega)] at hd0
    cases hd0
    rfl
  have hg0 : goodInv e.data K e.piece_byte_len d0 := by
    rw [hd0facts]
    refine ⟨rfl, rfl, rfl, rfl, ⟨?_, ?_⟩, ?_, ?_, ?_⟩
    · intro r hr
      exact absurd hr (by simp [DecoderMatrix.new])
    · intro r c
      show (getRow [] r).getD c 0 < 256
      rw [getRow_oob _ _ (by simp), getD_oob _ _ (Nat.zero_le c)]
      omega
    · intro r hr
      exact absurd hr (by simp [DecoderMatrix.new])
    · show (0 : Nat) ≤ K
      omega
    · intro hcon
      exfalso
      have h00 : (0 : Nat) = K := hcon
      omega
  have hpieces : ∀ p ∈ ps, (∀ x ∈ p, x < 256) ∧ ∀ j, j < e.piece_byte_len →
      p.getD (K + j) 0 = gfSum K (fun i =>
        gmul (e.data.getD (i * e.piece_byte_len + j) 0) (p.getD i 0)) := by
    intro p hp
    obtain ⟨c, hc256, hcode⟩ := hps p hp
    have hclen : c.length = K := by
      by_contra hcl
      unfold Encoder.code_with_coding_vector at hcode
      rw [if_pos (by rw [hpc]; exact hcl)] at hcode
      exact Except.noConfusion hcode
    have heq := code_with_coding_vector_eq e c (by rw [hpc]; exact hdl) (by omega)
      (by rw [hpc]; exact hclen)
    rw [hcode, hpc] at heq
    have hpe : p = codedRow e.data K e.piece_byte_len c := Except.ok.inj heq
    constructor
    · rw [hpe]
      exact codedRow_entries_lt e.data K e.piece_byte_len c hD hc256
    · intro j hj
      rw [hpe]
      exact codedRow_CD e.data K e.piece_byte_len c hclen j hj
  have hgF := feed_goodInv e.data K e.piece_byte_len hL hD ps d0 hg0 hpieces
  obtain ⟨⟨hu, hra, hrb⟩, hreq⟩ := feed_invariant ps d0
    (by rw [hd0facts]; exact ⟨rfl, Nat.le_refl 0, Nat.zero_le K⟩)
  have hrank : (feed d0 ps).matrix.rank = K := by
    rw [← hu, hfull]
  have hext := goodInv_decoded e.data K e.piece_byte_len (feed d0 ps)
    hK hL hgF hrank hdl hD
  rw [hext,
    decodedBoundary_padded e.data data.length (by omega) (by omega) hmark
      (fun t ht1 _ => htail t ht1)]
  congr 1
  apply list_ext_getD
  · rw [List.length_take]
    omega
  · intro j hj
    rw [List.length_take] at hj
    rw [getD_take _ _ _ (by omega), hpref j (by omega)]

/-- Witness for C1: `data = [1]`, `K = 1` (so `L = 2`, padded data
`[1, 129]`), with the single coded piece `[1, 1, 129]` for coding vector
`[1]`; the decoder returns `[1]`. -/
theorem C1_roundtrip_witness :
    ([1] : List Nat) ≠ [] ∧
    Encoder.new [1] 1 = .ok (Encoder.mk [1, 129] 1 2) ∧
    Decoder.new 2 1 = .ok (Decoder.mk (DecoderMatrix.mk 1 3 []) 2 1 0 0) ∧
    (feed (Decoder.mk (DecoderMatrix.mk 1 3 []) 2 1 0 0)
      [[1, 1, 129]]).useful_piece_count = 1 ∧
    (feed (Decoder.mk (DecoderMatrix.mk 1 3 []) 2 1 0 0)
      [[1, 1, 129]]).get_decoded_data = .ok [1] := by
  refine ⟨by decide, rfl, rfl, by decide, ?_⟩
  exact C1_roundtrip [1] 1 (by decide) (by decide)
    (Encoder.mk [1, 129] 1 2) rfl
    (Decoder.mk (DecoderMatrix.mk 1 3 []) 2 1 0 0) rfl
    [[1, 1, 129]]
    (fun p hp => by
      rw [List.mem_singleton] at hp
      exact ⟨[1], by decide, by rw [hp]; rfl⟩)
    (by decide)
